import Mathlib

/-!
Verification development for the `rust-live-programming` repository.

The definitions below are a shallow embedding of:
* the constraint solver of `compiler/src/inference.rs` (types, type classes,
  constraints, `unify`, `set_type_constraint`, `process_constraint`, the
  fixpoint loop of `Inference::infer`);
* the orchestrator of `compiler/src/compiler.rs` (`load_module` and
  `typecheck_new_polymorphic_instances`), with the external collaborators
  (lexer, parser, structure pass, `inference_solver`, LLVM backend) as
  oracle parameters, since their modules are not part of the sources;
* `template_quote` of `compiler/src/c_interface.rs`.

Machine maps are represented as association lists with replace-on-insert,
identifiers (`UnitId`, `SourceId`, `TypeSymbol`, interning ids) as `Nat`,
and Rust panics as an explicit flag or error value.
-/

/-- Language types (source: enum `Type` in the `types` module; that module is
    absent from the sources, so the enum shape follows its in-tree relative
    `typecheck3.rs` extended with the `Array`/`Generic` variants that
    `inference.rs` pattern-matches on; interned payloads are kept as `Nat`). -/
inductive Ty where
  | void | f64 | f32 | i64 | u64 | i32 | u32 | u16 | u8 | bool
  | funSig (sig : Nat)
  | defn (id : Nat)
  | ptr (id : Nat)
  | array (id : Nat)
  | generic (id : Nat)
deriving DecidableEq, Repr

/-- `Type::float` from `typecheck3.rs`. -/
def Ty.float : Ty → Bool
  | .f32 | .f64 => true
  | _ => false

/-- `Type::unsigned_int` from `typecheck3.rs`. -/
def Ty.unsigned_int : Ty → Bool
  | .u64 | .u32 | .u16 | .u8 => true
  | _ => false

/-- `Type::signed_int` from `typecheck3.rs`. -/
def Ty.signed_int : Ty → Bool
  | .i64 | .i32 => true
  | _ => false

/-- `Type::int` from `typecheck3.rs`. -/
def Ty.int (t : Ty) : Bool := t.signed_int || t.unsigned_int

/-- `Type::pointer` from `typecheck3.rs` (function values count as pointers). -/
def Ty.pointer : Ty → Bool
  | .ptr _ | .funSig _ => true
  | _ => false

/-- Modelled from the spec: `Type::number` is used by `inference.rs` but its
    definition lives in the missing `types` module; the spec's classes
    (`Integer` = the eight integer primitives, `Float` = f32/f64; conversions
    are number↔number) give number = integer or float. -/
def Ty.number (t : Ty) : Bool := t.int || t.float

/-- A type is concrete when it is not a generic variable (abstract classes are
    a separate `TypeConstraint` layer and cannot occur in a `Ty`). -/
def Ty.isConcrete : Ty → Bool
  | .generic _ => false
  | _ => true

/-- `TypeClass` from `inference.rs` (only `Float` and `Integer` exist). -/
inductive TypeClass where
  | float
  | integer
deriving DecidableEq, Repr

/-- `TypeClass::contains_type` from `inference.rs`. -/
def TypeClass.contains_type : TypeClass → Ty → Bool
  | .float, t => t.float
  | .integer, t => t.int

/-- `TypeClass::default_type` from `inference.rs`. -/
def TypeClass.default_type : TypeClass → Option Ty
  | .float => some .f64
  | .integer => some .i64

/-- `TypeConstraint` from `inference.rs`. -/
inductive TypeConstraint where
  | concrete (t : Ty)
  | cls (c : TypeClass)
deriving DecidableEq, Repr

/-- `TypeConstraint::default_type` from `inference.rs`. -/
def TypeConstraint.default_type : TypeConstraint → Option Ty
  | .concrete t => some t
  | .cls c => c.default_type

/-- `Inference::unify` from `inference.rs`. -/
def unify : TypeConstraint → TypeConstraint → Option TypeConstraint
  | .concrete ta, .concrete tb => if ta = tb then some (.concrete ta) else none
  | .cls c, .concrete t => if c.contains_type t then some (.concrete t) else none
  | .concrete t, .cls c => if c.contains_type t then some (.concrete t) else none
  | .cls ca, .cls cb => if ca = cb then some (.cls ca) else none

/-- The fragment of enum `Constraint` from `inference.rs` whose processing is
    self-contained in that file (the remaining variants consult the global
    symbol tables of the missing `types` module). The `equalivalent` spelling
    is the source's. -/
inductive Constraint where
  | assert (ts : Nat) (tc : TypeConstraint)
  | equalivalent (a b : Nat)
  | convert (val : Nat) (into_type : Ty)
deriving DecidableEq, Repr

def Constraint.isAssert : Constraint → Bool
  | .assert _ _ => true
  | _ => false

def Constraint.isEqualivalent : Constraint → Bool
  | .equalivalent _ _ => true
  | _ => false

/-- Association-list lookup (model of `HashMap::get`). -/
def assocLookup {α : Type} : List (Nat × α) → Nat → Option α
  | [], _ => none
  | (k, v) :: r, ts => if k = ts then some v else assocLookup r ts

/-- Association-list insert-or-replace (model of `HashMap::insert`). -/
def assocInsert {α : Type} : List (Nat × α) → Nat → α → List (Nat × α)
  | [], k, v => [(k, v)]
  | (k', v') :: r, k, v =>
    if k' = k then (k, v) :: r else (k', v') :: assocInsert r k v

/-- The mutable state of `Inference` in `inference.rs`: the resolution table,
    the error list (messages only; source locations are dropped), and a flag
    standing for a Rust panic. -/
structure InferState where
  resolved : List (Nat × TypeConstraint)
  errors : List String
  panicked : Bool
deriving DecidableEq, Repr

/-- `Inference::get_type` from `inference.rs`: a resolved class is eagerly
    replaced by its default type. -/
def InferState.get_type (st : InferState) (ts : Nat) : Option Ty :=
  (assocLookup st.resolved ts).bind TypeConstraint.default_type

/-- `Inference::set_type_constraint` from `inference.rs`: unify with any
    existing binding; a conflict records an error and keeps the old binding. -/
def InferState.set_type_constraint (st : InferState) (ts : Nat)
    (tc : TypeConstraint) : InferState :=
  match assocLookup st.resolved ts with
  | some prev =>
    match unify prev tc with
    | some tc2 => { st with resolved := assocInsert st.resolved ts tc2 }
    | none => { st with errors := st.errors ++ ["conflicting types inferred"] }
  | none => { st with resolved := assocInsert st.resolved ts tc }

/-- `Inference::set_type` from `inference.rs`. -/
def InferState.set_type (st : InferState) (ts : Nat) (t : Ty) : InferState :=
  st.set_type_constraint ts (.concrete t)

/-- `Inference::process_constraint` from `inference.rs`, restricted to the
    self-contained constraint fragment; returns the new state and whether the
    constraint made progress (and is removed from the pending list). -/
def InferState.process_constraint (st : InferState) :
    Constraint → InferState × Bool
  | .assert ts tc => (st.set_type_constraint ts tc, true)
  | .equalivalent a b =>
    match st.get_type a with
    | some t => (st.set_type b t, true)
    | none =>
      match st.get_type b with
      | some t => (st.set_type a t, true)
      | none => (st, false)
  | .convert val into_type =>
    match st.get_type val with
    | some t =>
      if (t.pointer && into_type.pointer)
          || (t.number && into_type.number)
          || (t.pointer && into_type.unsigned_int)
          || (t.unsigned_int && into_type.pointer) then
        (st, true)
      else
        ({ st with errors := st.errors ++ ["type conversion not supported"] },
         true)
    | none => (st, false)

/-- One pass of the worklist in `Inference::infer`: process every constraint
    in order, returning the state and the constraints that made no progress. -/
def runPass (st : InferState) : List Constraint → InferState × List Constraint
  | [] => (st, [])
  | c :: rest =>
    let p := st.process_constraint c
    let r := runPass p.1 rest
    (r.1, if p.2 then r.2 else c :: r.2)

/-- The `while unused_constraints.len() > 0` loop of `Inference::infer`:
    repeat passes until one removes nothing. The Rust loop needs no fuel
    because every continuing pass strictly shrinks the list; fuel at least
    the initial list length reproduces it exactly. -/
def solveLoop : Nat → InferState → List Constraint → InferState × List Constraint
  | 0, st, pend => (st, pend)
  | fuel + 1, st, pend =>
    if pend.length = 0 then (st, pend)
    else
      let r := runPass st pend
      if r.2.length = pend.length then r
      else solveLoop fuel r.1 r.2

/-- `Inference::unresolved_constraint_error` from `inference.rs`: a pending
    `Assert` panics (modelled by the flag), a pending `Equalivalent` is
    silently skipped, other pending constraints push one diagnostic. -/
def InferState.unresolved_constraint_error (st : InferState) :
    Constraint → InferState
  | .assert _ _ => { st with panicked := true }
  | .equalivalent _ _ => st
  | .convert _ _ => { st with errors := st.errors ++ ["convert not resolved"] }

/-- The inputs gathered by `GatherConstraints` (struct `Constraints` in
    `inference.rs`): the known type symbols, the node → type-symbol map, and
    the emitted constraint list. -/
structure Constraints where
  symbols : List Nat
  node_symbols : List (Nat × Nat)
  constraints : List Constraint
deriving DecidableEq, Repr

/-- Result of `Inference::infer`: the resolution table, the errors before and
    after the unresolved-constraint phase, the constraints still pending, the
    panic flag, and the node → type assignment (only filled when no error). -/
structure InferResult where
  resolved : List (Nat × TypeConstraint)
  errorsAfterSolve : List String
  errors : List String
  pending : List Constraint
  panicked : Bool
  node_type : List (Nat × Option Ty)
deriving DecidableEq, Repr

/-- `Inference::infer` from `inference.rs`: first pass, fixpoint loop,
    unresolved-constraint diagnostics, the sanity-check panic when symbols
    stay unresolved with no error, then the node-type assignment. -/
def infer (c : Constraints) : InferResult :=
  let st0 : InferState := ⟨[], [], false⟩
  let r1 := runPass st0 c.constraints
  let r2 := solveLoop c.constraints.length r1.1 r1.2
  let st3 := r2.2.foldl (fun s cc => s.unresolved_constraint_error cc) r2.1
  let unresolved_symbol_count := c.symbols.length - st3.resolved.length
  let st4 :=
    if unresolved_symbol_count > 0 && st3.errors.isEmpty then
      { st3 with panicked := true }
    else st3
  let node_type :=
    if st4.errors.isEmpty && !st4.panicked then
      c.node_symbols.map (fun p => (p.1, st4.get_type p.2))
    else []
  { resolved := st4.resolved, errorsAfterSolve := r2.1.errors,
    errors := st4.errors, pending := r2.2, panicked := st4.panicked,
    node_type := node_type }

/-- Literal values (source: enum `Val` in the `structure` module, whose shape
    is that of `Val` in `typecheck3.rs`; float payloads are kept as opaque
    bit patterns because no claim inspects them). -/
inductive LitVal where
  | F64 (bits : Nat)
  | F32 (bits : Nat)
  | I64 (v : Int)
  | U64 (v : Nat)
  | I32 (v : Int)
  | U32 (v : Nat)
  | U16 (v : Nat)
  | U8 (v : Nat)
  | string (s : String)
  | bool (b : Bool)
  | void
deriving DecidableEq, Repr

/-- The literal arm of `GatherConstraints::process_node` in `inference.rs`
    (`Content::Literal`): the type constraint asserted for a literal node.
    `stringDef` is the interned id of the core `string` type definition. -/
def literalTypeConstraint (stringDef : Nat) : LitVal → TypeConstraint
  | .F64 _ | .F32 _ => .cls .float
  | .I64 _ | .I32 _ | .U64 _ | .U32 _ | .U16 _ | .U8 _ => .cls .integer
  | .bool _ => .concrete .bool
  | .void => .concrete .void
  | .string _ => .concrete (.defn stringDef)

/-- Leaves of an expression tree. Modelled from the spec: the `expr` module is
    absent from the sources; §3 describes an expression as a symbol, a
    literal (bool, int, float, string, void) or a constructor node. -/
inductive LeafVal where
  | symbol (s : String)
  | litBool (b : Bool)
  | litInt (v : Int)
  | litFloat (bits : Nat)
  | litString (s : String)
  | litVoid
deriving DecidableEq, Repr

/-- Expression trees (source: struct `Expr` in the missing `expr` module, as
    used by `c_interface.rs`: `try_construct` yields a head name and children,
    `ExprContent::list(name, children)` rebuilds one, and expressions carry a
    source location, kept as an opaque `Nat`). -/
inductive SrcExpr where
  | construct (loc : Nat) (name : String) (children : List SrcExpr)
  | leaf (loc : Nat) (v : LeafVal)

/-- Run values (source: enum `Val` in `compiler.rs`; float payloads are kept
    as opaque bit patterns). -/
inductive RunVal where
  | void
  | F64 (bits : Nat)
  | F32 (bits : Nat)
  | I64 (v : Int)
  | U64 (v : Nat)
  | I32 (v : Int)
  | U32 (v : Nat)
  | U16 (v : Nat)
  | U8 (v : Nat)
  | string (s : String)
  | bool (b : Bool)
deriving DecidableEq, Repr

/-- A global function/symbol definition as consulted by `compiler.rs`
    (`def.id`, `def.unit_id`, `def.is_polymorphic()`); the remaining fields of
    the missing `types` module are irrelevant to the claims. -/
structure SymbolDef where
  id : Nat
  unit_id : Nat
  is_polymorphic : Bool
deriving DecidableEq, Repr

/-- The symbol table of a unit (`types.symbols` in `compiler.rs`), keyed by
    symbol id. -/
structure TypesRepr where
  symbols : List (Nat × SymbolDef)
deriving DecidableEq, Repr

/-- A unit's type mapping as consulted by `compiler.rs`: the recorded
    polymorphic references `(poly_unit_id, symbol_id, type_tag)`; type tags
    (concrete signatures) are interned ids kept as `Nat`. -/
structure MappingRepr where
  polymorphic_references : List (Nat × Nat × Nat)
deriving DecidableEq, Repr

/-- `PolyFunction` from the `code_store` module as used by `compiler.rs`:
    the per-signature instance registry `type_tag → (instance_unit_id,
    instance_symbol_id)`. -/
structure PolyFunction where
  source_unit : Nat
  instances : List (Nat × (Nat × Nat))
deriving DecidableEq, Repr

/-- Modelled from the spec: the code store of the missing `code_store` module
    (§3 lists its tables); node graphs and llvm units are opaque tokens. -/
structure CodeStore where
  code : List (Nat × String)
  exprs : List (Nat × SrcExpr)
  nodes : List (Nat × Nat)
  types : List (Nat × TypesRepr)
  type_mappings : List (Nat × MappingRepr)
  llvm_units : List (Nat × Nat)
  vals : List (Nat × RunVal)
  poly_functions : List (Nat × PolyFunction)

/-- The external collaborators invoked by `compiler.rs`, as oracles: lexing
    and parsing, the structure pass, the two entry points of the missing
    `inference_solver` module, codegen and top-level execution. Oracles that
    draw fresh uids thread the generator counter. -/
structure Backend where
  lex_parse : String → Except String SrcExpr
  to_nodes : SrcExpr → Except String Nat
  infer_types : Nat → CodeStore → Nat →
    Except String (TypesRepr × MappingRepr × Nat)
  typecheck_instance : Nat → SymbolDef → Nat → CodeStore → Nat →
    Except String (TypesRepr × MappingRepr × Nat × Nat)
  compile_unit : Nat → CodeStore → Except String Nat
  run_top_level : Nat → CodeStore → Except String RunVal

/-- The mutable state of struct `Compiler` in `compiler.rs`: the code store
    and the uid generator (`UIDGenerator` modelled as a counter). -/
structure Compiler where
  store : CodeStore
  gen : Nat

/-- Intermediate state of the reference scan inside
    `Compiler::typecheck_new_polymorphic_instances`. -/
structure RefsState where
  store : CodeStore
  gen : Nat
  queue_adds : List Nat
  new_types : List (Nat × TypesRepr × MappingRepr)
  log : List (Nat × Nat)

/-- The inner `for` loop of `Compiler::typecheck_new_polymorphic_instances`:
    scan one unit's polymorphic references; for each reference whose signature
    has no registered instance, allocate a fresh unit id, typecheck the
    instance, and register it with the code store before continuing. Rust
    panics (failed unwraps) and `?`-propagated errors are returned as the
    first component; the log records each materialized (symbol, type tag). -/
def processRefs (b : Backend) (s : RefsState) :
    List (Nat × Nat × Nat) → Option String × RefsState
  | [] => (none, s)
  | (poly_unit_id, symbol_id, type_tag) :: rest =>
    match assocLookup s.store.poly_functions symbol_id with
    | none => processRefs b s rest
    | some pf =>
      match assocLookup pf.instances type_tag with
      | some _ => processRefs b s rest
      | none =>
        let instance_unit_id := s.gen
        let gen1 := s.gen + 1
        match assocLookup s.store.types poly_unit_id with
        | none => (some "panicked: unit types not found", { s with gen := gen1 })
        | some tys =>
          match assocLookup tys.symbols symbol_id with
          | none => (some "panicked: poly def not found", { s with gen := gen1 })
          | some poly_def =>
            match b.typecheck_instance instance_unit_id poly_def type_tag
                s.store gen1 with
            | .error e => (some e, { s with gen := gen1 })
            | .ok (itypes, imapping, instance_symbol_id, gen2) =>
              let inst2 := assocInsert pf.instances type_tag (instance_unit_id, instance_symbol_id)
              let pf2 : PolyFunction := ⟨pf.source_unit, inst2⟩
              let store2 := { s.store with poly_functions := assocInsert s.store.poly_functions symbol_id pf2 }
              let s2 : RefsState :=
                ⟨store2, gen2, s.queue_adds ++ [instance_unit_id],
                 s.new_types ++ [(instance_unit_id, itypes, imapping)],
                 s.log ++ [(symbol_id, type_tag)]⟩
              processRefs b s2 rest

/-- The `new_types.drain(..)` loop at the end of each driver iteration:
    register the new instances' types and type mappings with the code store. -/
def drainNewTypes (nt : List (Nat × TypesRepr × MappingRepr))
    (st : CodeStore) : CodeStore :=
  nt.foldl
    (fun st p =>
      let sa := { st with types := assocInsert st.types p.1 p.2.1 }
      { sa with type_mappings := assocInsert sa.type_mappings p.1 p.2.2 })
    st

/-- Result of the polymorphism driver: error (if any), final store and
    generator, and the log of materialized (symbol, type tag) pairs. -/
structure DriverOut where
  err : Option String
  store : CodeStore
  gen : Nat
  log : List (Nat × Nat)

/-- The breadth-first `while let Some(psid) = queue.pop_front()` loop of
    `Compiler::typecheck_new_polymorphic_instances`: scan the unit's
    references, then register the new type info with the code store and
    enqueue the new instance units. The Rust loop carries no fuel; the fuel
    argument makes the (possibly diverging) recursion structural. -/
def driver (b : Backend) : Nat → CodeStore → Nat → List Nat → DriverOut
  | 0, store, gen, _ => ⟨none, store, gen, []⟩
  | fuel + 1, store, gen, queue =>
    match queue with
    | [] => ⟨none, store, gen, []⟩
    | psid :: qrest =>
      match assocLookup store.type_mappings psid with
      | none => ⟨some "panicked: mapping not found", store, gen, []⟩
      | some mapping =>
        let r := processRefs b ⟨store, gen, [], [], []⟩
          mapping.polymorphic_references
        match r.1 with
        | some e => ⟨some e, r.2.store, r.2.gen, r.2.log⟩
        | none =>
          let store2 := drainNewTypes r.2.new_types r.2.store
          let rec2 := driver b fuel store2 r.2.gen (qrest ++ r.2.queue_adds)
          { rec2 with log := r.2.log ++ rec2.log }

/-- `Compiler::parse`: look up the stored source text, lex and parse it, and
    store the expression under the unit id. -/
def parse_stage (b : Backend) (cp : Compiler) (source_id unit_id : Nat) :
    Option String × Compiler :=
  match assocLookup cp.store.code source_id with
  | none => (some "panicked: source not found", cp)
  | some code =>
    match b.lex_parse code with
    | .error e => (some e, cp)
    | .ok e =>
      (none, { cp with store := { cp.store with exprs := assocInsert cp.store.exprs unit_id e } })

/-- `Compiler::structure`: look up the stored expression, lower it to nodes,
    and store the node graph. -/
def structure_stage (b : Backend) (cp : Compiler) (unit_id : Nat) :
    Option String × Compiler :=
  match assocLookup cp.store.exprs unit_id with
  | none => (some "panicked: expr not found", cp)
  | some e =>
    match b.to_nodes e with
    | .error er => (some er, cp)
    | .ok nodes =>
      (none, { cp with store := { cp.store with nodes := assocInsert cp.store.nodes unit_id nodes } })

/-- `Compiler::typecheck`: run type inference, register a fresh empty
    `PolyFunction` for every polymorphic symbol of the new unit, store the
    unit's types and mapping, then drive polymorphic instance creation. -/
def typecheck_stage (b : Backend) (fuel : Nat) (cp : Compiler)
    (unit_id : Nat) : Option String × Compiler :=
  match b.infer_types unit_id cp.store cp.gen with
  | .error e => (some e, cp)
  | .ok (tys, mapping, gen2) =>
    let store2 := tys.symbols.foldl
      (fun st p =>
        if p.2.is_polymorphic then
          { st with poly_functions := assocInsert st.poly_functions p.2.id ⟨p.2.unit_id, []⟩ }
        else st)
      cp.store
    let store3a := { store2 with types := assocInsert store2.types unit_id tys }
    let store3 := { store3a with type_mappings := assocInsert store3a.type_mappings unit_id mapping }
    let d := driver b fuel store3 gen2 [unit_id]
    (d.err, { store := d.store, gen := d.gen })

/-- The reachability scan of `Compiler::codegen`: collect the (not yet code
    generated) instance units the new unit depends on. -/
def codegenSearch (store : CodeStore) :
    Nat → List Nat → List Nat → Option String × List Nat
  | 0, _, acc => (none, acc)
  | fuel + 1, queue, acc =>
    match queue with
    | [] => (none, acc)
    | psid :: qrest =>
      match assocLookup store.type_mappings psid with
      | none => (some "panicked: mapping not found", acc)
      | some mapping =>
        let rec scan : List (Nat × Nat × Nat) → List Nat → List Nat →
            Option String × (List Nat × List Nat)
          | [], q, a => (none, (q, a))
          | (_, symbol_id, type_tag) :: rest, q, a =>
            match assocLookup store.poly_functions symbol_id with
            | none => (some "panicked: poly function not found", (q, a))
            | some pf =>
              match assocLookup pf.instances type_tag with
              | none => (some "panicked: instance not found", (q, a))
              | some inst =>
                if assocLookup store.llvm_units inst.1 = none then
                  scan rest (q ++ [inst.1])
                    (if inst.1 ∈ a then a else a ++ [inst.1])
                else scan rest q a
        match scan mapping.polymorphic_references qrest acc with
        | (some e, (_, a)) => (some e, a)
        | (none, (q2, a2)) => codegenSearch store fuel q2 a2

/-- The `for &id in units_to_codegen` loop of `Compiler::codegen`: compile
    each unit and store its llvm unit, failing fast. -/
def compileUnits (b : Backend) : Compiler → List Nat → Option String × Compiler
  | cp, [] => (none, cp)
  | cp, id :: rest =>
    match b.compile_unit id cp.store with
    | .error e => (some e, cp)
    | .ok lu =>
      let st2 := { cp.store with llvm_units := assocInsert cp.store.llvm_units id lu }
      compileUnits b { cp with store := st2 } rest

/-- `Compiler::codegen`: collect the units to code generate, compile each and
    store its llvm unit (linking mutates no store state). -/
def codegen_stage (b : Backend) (fuel : Nat) (cp : Compiler)
    (unit_id : Nat) : Option String × Compiler :=
  match codegenSearch cp.store fuel [unit_id] [unit_id] with
  | (some e, _) => (some e, cp)
  | (none, units) => compileUnits b cp units

/-- `Compiler::initialise`: run the unit's top-level function and store the
    returned value. -/
def initialise_stage (b : Backend) (cp : Compiler) (unit_id : Nat) :
    Option String × Compiler :=
  match b.run_top_level unit_id cp.store with
  | .error e => (some e, cp)
  | .ok v =>
    (none, { cp with store :=
      { cp.store with vals := assocInsert cp.store.vals unit_id v } })

/-- `Compiler::load_module_from_expr_internal`: structure, typecheck,
    codegen, initialise, failing fast. -/
def load_module_from_expr_internal (b : Backend) (fuel : Nat)
    (cp : Compiler) (unit_id : Nat) : Option String × Compiler :=
  match structure_stage b cp unit_id with
  | (some e, cp1) => (some e, cp1)
  | (none, cp1) =>
    match typecheck_stage b fuel cp1 unit_id with
    | (some e, cp2) => (some e, cp2)
    | (none, cp2) =>
      match codegen_stage b fuel cp2 unit_id with
      | (some e, cp3) => (some e, cp3)
      | (none, cp3) => initialise_stage b cp3 unit_id

/-- The tail of `Compiler::load_module` after id allocation and source-text
    insertion: parse, run the pipeline, and read the stored run value back. -/
def load_module_core (b : Backend) (fuel : Nat) (cp : Compiler)
    (source_id unit_id : Nat) : Except String (Nat × RunVal) × Compiler :=
  match parse_stage b cp source_id unit_id with
  | (some e, cp1) => (.error e, cp1)
  | (none, cp1) =>
    match load_module_from_expr_internal b fuel cp1 unit_id with
    | (some e, cp2) => (.error e, cp2)
    | (none, cp2) =>
      match assocLookup cp2.store.vals unit_id with
      | none => (.error "panicked: val not found", cp2)
      | some v => (.ok (unit_id, v), cp2)

/-- `Compiler::load_module` from `compiler.rs`: allocate a source id, store
    the source text, allocate a unit id, parse, run the pipeline, and read the
    stored run value back. -/
def load_module (b : Backend) (fuel : Nat) (cp : Compiler) (code : String) :
    Except String (Nat × RunVal) × Compiler :=
  let source_id := cp.gen
  let st1 := { cp.store with code := assocInsert cp.store.code cp.gen code }
  let cp := { cp with gen := cp.gen + 1, store := st1 }
  let unit_id := cp.gen
  let cp := { cp with gen := cp.gen + 1 }
  load_module_core b fuel cp source_id unit_id

/-- `Expr::try_construct` as used by `c_interface.rs`: a construct yields its
    head name and children. -/
def SrcExpr.try_construct : SrcExpr → Option (String × List SrcExpr)
  | .construct _ name children => some (name, children)
  | .leaf _ _ => none

mutual
/-- The recursive `template` helper inside `template_quote` in
    `c_interface.rs`: a `$`-construct is replaced by the next argument
    (the unchecked slice index `args[*next_arg]`, whose out-of-bounds panic
    is modelled by `none`); any other construct is rebuilt from its processed
    children with the same location and head; a leaf is cloned. The counter
    `next_arg` is threaded left-to-right, depth-first. -/
def templateExpr (args : List SrcExpr) : SrcExpr → Nat → Option (SrcExpr × Nat)
  | .construct loc name es, n =>
    if name = "$" then
      match args[n]? with
      | some a => some (a, n + 1)
      | none => none
    else
      match templateChildren args es n with
      | some (cs, n2) => some (.construct loc name cs, n2)
      | none => none
  | .leaf loc v, n => some (.leaf loc v, n)

/-- The `for expr in es` loop inside `template`: process the children in
    order, threading the argument counter. -/
def templateChildren (args : List SrcExpr) :
    List SrcExpr → Nat → Option (List SrcExpr × Nat)
  | [], n => some ([], n)
  | e :: es, n =>
    match templateExpr args e n with
    | some (e2, n2) =>
      match templateChildren args es n2 with
      | some (es2, n3) => some (e2 :: es2, n3)
      | none => none
    | none => none
end

/-- `template_quote` from `c_interface.rs`: run `template` with the counter
    starting at 0; `none` stands for the Rust panic on an out-of-bounds
    argument index. -/
def template_quote (e : SrcExpr) (args : List SrcExpr) : Option SrcExpr :=
  (templateExpr args e 0).map Prod.fst

mutual
/-- Number of `$`-marked constructs substituted by `template_quote` (children
    of a `$` construct are not traversed, mirroring the substitution). -/
def dollarCount : SrcExpr → Nat
  | .construct _ name es => if name = "$" then 1 else dollarCountList es
  | .leaf _ _ => 0

def dollarCountList : List SrcExpr → Nat
  | [] => 0
  | e :: es => dollarCount e + dollarCountList es
end

mutual
/-- Read back, in depth-first left-to-right order, the subtrees of a result
    tree that sit at the `$`-marked positions of the template. -/
def readback : SrcExpr → SrcExpr → List SrcExpr
  | .construct _ name es, r =>
    if name = "$" then [r]
    else
      match r with
      | .construct _ _ rs => readbackList es rs
      | .leaf _ _ => []
  | .leaf _ _, _ => []

def readbackList : List SrcExpr → List SrcExpr → List SrcExpr
  | e :: es, r :: rs => readback e r ++ readbackList es rs
  | _, _ => []
end

/-- The acceptance condition of the `Constraint::Convert` arm of
    `Inference::process_constraint` (the four-way `if`/`else if` chain),
    as a standalone predicate. -/
def convertAccepted (t into_type : Ty) : Bool :=
  (t.pointer && into_type.pointer)
    || (t.number && into_type.number)
    || (t.pointer && into_type.unsigned_int)
    || (t.unsigned_int && into_type.pointer)

/-- The conversion set exactly as claim C3 states it, following the spec's
    words: pointer to pointer, number to number, or pointer to `u64` in
    either direction. For comparison with `convertAccepted`. -/
def specConvertSet (t into_type : Ty) : Bool :=
  (t.pointer && into_type.pointer)
    || (t.number && into_type.number)
    || (t.pointer && (into_type == Ty.u64))
    || ((t == Ty.u64) && into_type.pointer)

/-- The amended conversion set: pointer to pointer, number to number, or
    pointer to any unsigned integer type in either direction. -/
def specConvertSetAmended (t into_type : Ty) : Bool :=
  (t.pointer && into_type.pointer)
    || (t.number && into_type.number)
    || (t.pointer && into_type.unsigned_int)
    || (t.unsigned_int && into_type.pointer)

/-- The type constraints asserted for a given type symbol by a constraint
    list (the per-symbol projection of its `Assert` constraints, in order). -/
def tcFor (cs : List Constraint) (k : Nat) : List TypeConstraint :=
  cs.filterMap (fun c =>
    match c with
    | .assert ts tc => if ts = k then some tc else none
    | _ => none)

/-- Fold a list of type constraints with `unify`, starting from an optional
    current binding; `none` (outer) reports a unification conflict. -/
def meetFold : Option TypeConstraint → List TypeConstraint →
    Option (Option TypeConstraint)
  | acc, [] => some acc
  | none, tc :: r => meetFold (some tc) r
  | some prev, tc :: r =>
    match unify prev tc with
    | some m => meetFold (some m) r
    | none => none

/-- The state after processing a list of constraints once, in order
    (the state component of `runPass`). -/
def assertFold (st : InferState) (cs : List Constraint) : InferState :=
  cs.foldl (fun s c => (s.process_constraint c).1) st

/-- The type symbols mentioned by a constraint (the symbols it can bind). -/
def Constraint.mentioned : Constraint → List Nat
  | .assert ts _ => [ts]
  | .equalivalent a b => [a, b]
  | .convert val _ => [val]

/-- A constraint's asserted payload is free of generic variables (true for
    every constraint the gatherer emits for a well-formed module). -/
def TypeConstraint.payloadConcrete : TypeConstraint → Bool
  | .concrete t => t.isConcrete
  | .cls _ => true

/-- An empty code store. -/
def emptyStore : CodeStore := ⟨[], [], [], [], [], [], [], []⟩

/-- A fresh compiler (empty store, generator at 0). -/
def freshCompiler : Compiler := ⟨emptyStore, 0⟩

/-- A trivial parsed expression used by the failing-backend scenario. -/
def voidExpr : SrcExpr := .leaf 0 .litVoid

/-- A backend whose lexer/parser succeeds and whose structure pass fails:
    drives `load_module` into the error path after the source text and the
    expression have already been inserted into the code store. -/
def structureFailBackend : Backend where
  lex_parse := fun _ => .ok voidExpr
  to_nodes := fun _ => .error "malformed construct"
  infer_types := fun _ _ _ => .error "unused"
  typecheck_instance := fun _ _ _ _ _ => .error "unused"
  compile_unit := fun _ _ => .error "unused"
  run_top_level := fun _ _ => .error "unused"

/-- Constraint inputs for the C2 counterexample, first emission order:
    assert symbol 1 abstract Integer, equate 1 with 2, then assert 1 = u32. -/
def c2InputP : Constraints :=
  ⟨[1, 2], [(10, 1), (11, 2)],
   [.assert 1 (.cls .integer), .equalivalent 1 2, .assert 1 (.concrete .u32)]⟩

/-- The same multiset of constraints in a different emission order. -/
def c2InputQ : Constraints :=
  ⟨[1, 2], [(10, 1), (11, 2)],
   [.assert 1 (.cls .integer), .assert 1 (.concrete .u32), .equalivalent 1 2]⟩

/-- Constraint inputs for the C6 counterexample: a type conflict on symbol 3
    plus an `Equalivalent` constraint that can never make progress. -/
def c6Input : Constraints :=
  ⟨[1, 2, 3], [],
   [.assert 3 (.concrete .u32), .assert 3 (.concrete .bool),
    .equalivalent 1 2]⟩

/-- Lookup of a registered polymorphic instance: the composition the driver
    performs through `poly_functions` and the per-function `instances` map. -/
def instLookup (store : CodeStore) (sym tag : Nat) : Option (Nat × Nat) :=
  (assocLookup store.poly_functions sym).bind
    (fun pf => assocLookup pf.instances tag)

/-- A code store for the C8 witness: symbol 7 already has an instance for
    signature 3; symbol 8 (defined by unit 0) has none, and unit 100's
    mapping references (8, signature 5). -/
def c8Store : CodeStore :=
  { code := [], exprs := [], nodes := [],
    types := [(0, ⟨[(8, ⟨8, 0, true⟩)]⟩)],
    type_mappings := [(100, ⟨[(0, 8, 5)]⟩)],
    llvm_units := [], vals := [],
    poly_functions := [(7, ⟨0, [(3, (9, 9))]⟩), (8, ⟨0, []⟩)] }

/-- A backend whose polymorphic-instance typechecker always succeeds with an
    empty instance module (enough to exercise the driver). -/
def c8Backend : Backend where
  lex_parse := fun _ => .error "unused"
  to_nodes := fun _ => .error "unused"
  infer_types := fun _ _ _ => .error "unused"
  typecheck_instance := fun _ _ _ _ g => .ok (⟨[]⟩, ⟨[]⟩, 42, g)
  compile_unit := fun _ _ => .error "unused"
  run_top_level := fun _ _ => .error "unused"

/-- Provenance of a resolved type constraint: it was asserted somewhere in
    the constraint list, or it is one of the two class defaults that
    `get_type` can propagate. -/
def tcFromAsserts (cs : List Constraint) (tc : TypeConstraint) : Prop :=
  (∃ ts, Constraint.assert ts tc ∈ cs) ∨ tc = .concrete .i64 ∨ tc = .concrete .f64

/-- The state invariant maintained by the solver over a constraint set drawn
    from `cs0` whose mentioned symbols lie in `S`: the resolution table has
    duplicate-free keys, every resolved key is a known symbol, and every
    resolved constraint traces back to an assert or to a class default. -/
def InvOK (S : List Nat) (cs0 : List Constraint) (st : InferState) : Prop :=
  (st.resolved.map Prod.fst).Nodup ∧
  (∀ k, (assocLookup st.resolved k).isSome → k ∈ S) ∧
  (∀ k tc, assocLookup st.resolved k = some tc → tcFromAsserts cs0 tc)

/-- C2 (counterexample): two emission orders of the same constraint multiset
    both type-check (no errors) yet produce different final node→type
    assignments: the `Equalivalent` constraint propagates the eagerly
    defaulted `i64` of the still-abstract Integer symbol in one order, and
    the final `u32` in the other. -/
theorem c2_counterexample :
    c2InputP.symbols = c2InputQ.symbols ∧
    c2InputP.node_symbols = c2InputQ.node_symbols ∧
    c2InputP.constraints.Perm c2InputQ.constraints ∧
    (infer c2InputP).errors = [] ∧
    (infer c2InputQ).errors = [] ∧
    (infer c2InputP).node_type ≠ (infer c2InputQ).node_type := by
  refine ⟨rfl, rfl, ?_, by decide, by decide, by decide⟩
  exact .cons _ (.swap _ _ _)

/-- C3 (counterexample): a `Convert` from a resolved pointer type into `u32`
    is accepted by `process_constraint` (no error, constraint consumed),
    although the claim's enumerated set only admits `u64` as the
    pointer-integer partner. -/
theorem c3_counterexample :
    InferState.process_constraint ⟨[(1, .concrete (.ptr 0))], [], false⟩
        (.convert 1 .u32)
      = (⟨[(1, .concrete (.ptr 0))], [], false⟩, true) ∧
    specConvertSet (.ptr 0) .u32 = false := by
  decide

/-- C3 (amended): a `Convert` constraint from a resolved source type is
    consumed in all cases; it succeeds without error exactly when the cast is
    pointer→pointer, number→number, or pointer↔(any unsigned integer type)
    — `convertAccepted`, which coincides with the amended enumerated set —
    and otherwise (for example `bool` to `i64`) it records a
    "type conversion not supported" error. -/
theorem c3_amended_convert_policy :
    (∀ (st : InferState) (val : Nat) (into_type t : Ty),
      st.get_type val = some t →
      st.process_constraint (.convert val into_type)
        = if convertAccepted t into_type then (st, true)
          else ({ st with
            errors := st.errors ++ ["type conversion not supported"] }, true)) ∧
    (∀ t into_type, convertAccepted t into_type
        = specConvertSetAmended t into_type) ∧
    (∀ (st : InferState) (val : Nat),
      st.get_type val = some .bool →
      st.process_constraint (.convert val .i64)
        = ({ st with
            errors := st.errors ++ ["type conversion not supported"] }, true)) := by
  refine ⟨?_, fun _ _ => rfl, ?_⟩
  · intro st val into_type t h
    simp only [InferState.process_constraint, h, convertAccepted]
  · intro st val h
    simp only [InferState.process_constraint, h]
    rw [if_neg (by decide)]

/-- Witness for `c3_amended_convert_policy`: a `u32 → i64` conversion from a
    concrete state succeeds, and `bool → i64` is rejected there. -/
theorem c3_witness :
    (InferState.process_constraint ⟨[(4, .concrete .u32)], [], false⟩
        (.convert 4 .i64)
      = (⟨[(4, .concrete .u32)], [], false⟩, true)) ∧
    (InferState.process_constraint ⟨[(5, .concrete .bool)], [], false⟩
        (.convert 5 .i64)
      = (⟨[(5, .concrete .bool)],
          ["type conversion not supported"], false⟩, true)) := by
  constructor
  · have h := c3_amended_convert_policy.1 ⟨[(4, .concrete .u32)], [], false⟩
      4 .i64 .u32 (by decide)
    simpa using h
  · have h := c3_amended_convert_policy.2.2 ⟨[(5, .concrete .bool)], [], false⟩
      5 (by decide)
    simpa using h

/-- C5: `unify` follows the lattice rules: two concrete types unify iff they
    are equal; an abstract class unifies with a concrete type iff it contains
    it, yielding the concrete type (in both argument orders); and for two
    abstract classes the result is the smaller class whenever one is
    contained in the other, with a conflict when neither contains the other
    (in this solver the only classes are `Integer` and `Float`, so
    containment coincides with equality). -/
theorem c5_unify_lattice :
    (∀ ta tb, unify (.concrete ta) (.concrete tb)
        = if ta = tb then some (.concrete ta) else none) ∧
    (∀ c t, unify (.cls c) (.concrete t)
        = if c.contains_type t then some (.concrete t) else none) ∧
    (∀ c t, unify (.concrete t) (.cls c)
        = if c.contains_type t then some (.concrete t) else none) ∧
    (∀ ca cb, (∀ t, ca.contains_type t = true → cb.contains_type t = true) →
        unify (.cls ca) (.cls cb) = some (.cls ca)) ∧
    (∀ ca cb,
        ¬ (∀ t, ca.contains_type t = true → cb.contains_type t = true) →
        ¬ (∀ t, cb.contains_type t = true → ca.contains_type t = true) →
        unify (.cls ca) (.cls cb) = none) := by
  refine ⟨fun _ _ => rfl, fun _ _ => rfl, fun _ _ => rfl, ?_, ?_⟩
  · intro ca cb h
    cases ca <;> cases cb
    · rfl
    · exact absurd (h .f32 (by decide)) (by decide)
    · exact absurd (h .i64 (by decide)) (by decide)
    · rfl
  · intro ca cb h1 h2
    cases ca <;> cases cb
    · exact absurd (fun t ht => ht) h1
    · rfl
    · rfl
    · exact absurd (fun t ht => ht) h1

/-- Witness for `c5_unify_lattice`: `Integer ∩ Integer = Integer` (containment
    instantiated reflexively) and `Integer ∩ Float` is a conflict. -/
theorem c5_witness :
    unify (.cls .integer) (.cls .integer) = some (.cls .integer) ∧
    unify (.cls .integer) (.cls .float) = none := by
  constructor
  · exact c5_unify_lattice.2.2.2.1 .integer .integer (fun _ ht => ht)
  · exact c5_unify_lattice.2.2.2.2 .integer .float
      (fun h => absurd (h .i64 (by decide)) (by decide))
      (fun h => absurd (h .f32 (by decide)) (by decide))

/-- C6 (counterexample): after the fixpoint stops, one constraint (an
    `Equalivalent`) remains pending, yet the unresolved-constraint phase adds
    no error at all: the error total equals the pre-phase total although the
    claim demands one error per pending constraint. -/
theorem c6_counterexample :
    (infer c6Input).pending = [.equalivalent 1 2] ∧
    (infer c6Input).pending.length = 1 ∧
    (infer c6Input).errors = (infer c6Input).errorsAfterSolve ∧
    (infer c6Input).errors.length = 1 := by
  decide

theorem runPass_pending_not_assert :
    ∀ (cs : List Constraint) (st : InferState) (c : Constraint),
      c ∈ (runPass st cs).2 → c.isAssert = false := by
  intro cs
  induction cs with
  | nil => intro st c h; simp [runPass] at h
  | cons c' rest ih =>
    intro st c h
    cases c' with
    | assert ts tc =>
      simp only [runPass, InferState.process_constraint] at h
      exact ih _ _ h
    | equalivalent a b =>
      simp only [runPass] at h
      split at h
      · exact ih _ _ h
      · rw [List.mem_cons] at h
        rcases h with rfl | h
        · rfl
        · exact ih _ _ h
    | convert val into_type =>
      simp only [runPass] at h
      split at h
      · exact ih _ _ h
      · rw [List.mem_cons] at h
        rcases h with rfl | h
        · rfl
        · exact ih _ _ h

theorem solveLoop_pending_not_assert :
    ∀ (fuel : Nat) (st : InferState) (pend : List Constraint),
      (∀ c ∈ pend, c.isAssert = false) →
      ∀ c ∈ (solveLoop fuel st pend).2, c.isAssert = false := by
  intro fuel
  induction fuel with
  | zero => intro st pend h c hc; exact h c hc
  | succ n ih =>
    intro st pend h c hc
    simp only [solveLoop] at hc
    split at hc
    · exact h c hc
    · split at hc
      · exact runPass_pending_not_assert _ _ _ hc
      · exact ih _ _ (fun d hd => runPass_pending_not_assert _ _ _ hd) c hc

theorem uce_fold_errors :
    ∀ (pend : List Constraint) (st : InferState),
      (∀ c ∈ pend, c.isAssert = false) →
      (pend.foldl (fun s cc => s.unresolved_constraint_error cc) st).errors.length
        = st.errors.length
          + (pend.filter (fun cc => !cc.isEqualivalent)).length := by
  intro pend
  induction pend with
  | nil => intro st _; simp
  | cons c rest ih =>
    intro st h
    cases c with
    | assert ts tc => exact absurd (h _ (List.mem_cons_self _ _)) (by simp [Constraint.isAssert])
    | equalivalent a b =>
      have := ih (st.unresolved_constraint_error (.equalivalent a b))
        (fun d hd => h d (List.mem_cons_of_mem _ hd))
      simpa [InferState.unresolved_constraint_error, Constraint.isEqualivalent] using this
    | convert val into_type =>
      have := ih (st.unresolved_constraint_error (.convert val into_type))
        (fun d hd => h d (List.mem_cons_of_mem _ hd))
      simp [InferState.unresolved_constraint_error, Constraint.isEqualivalent] at this ⊢
      omega

/-- C6 (amended): after the fixpoint loop stops, no `Assert` constraint is
    ever pending, and the unresolved-constraint phase adds exactly one error
    per pending constraint that is not an `Equalivalent` — pending
    `Equalivalent` constraints are silently skipped, so the error count for
    unresolved constraints equals the number of pending non-`Equalivalent`
    constraints rather than the number of all pending constraints. -/
theorem c6_amended_unresolved_errors (X : Constraints) :
    (∀ c ∈ (infer X).pending, c.isAssert = false) ∧
    (infer X).errors.length = (infer X).errorsAfterSolve.length
      + ((infer X).pending.filter (fun c => !c.isEqualivalent)).length := by
  have hpend : ∀ c ∈ (infer X).pending, c.isAssert = false := by
    intro c hc
    simp only [infer] at hc
    exact solveLoop_pending_not_assert _ _ _
      (fun d hd => runPass_pending_not_assert _ _ _ hd) c hc
  refine ⟨hpend, ?_⟩
  simp only [infer] at hpend ⊢
  split
  · exact uce_fold_errors _ _ hpend
  · exact uce_fold_errors _ _ hpend

theorem infer_decompose (X : Constraints) :
    (infer X).node_type
      = if (infer X).errors.isEmpty && !(infer X).panicked then
          X.node_symbols.map (fun p =>
            (p.1, (assocLookup (infer X).resolved p.2).bind
              TypeConstraint.default_type))
        else [] := rfl

/-- C4: literal typing and defaulting. An integer literal is asserted to the
    abstract `Integer` class and a float literal to `Float`; the class
    defaults are `i64` and `f64`; a node whose symbol is still abstract after
    the fixpoint receives the class default in the final assignment; and an
    explicit annotation that asserts a concrete member of the class narrows
    the symbol to that member instead. -/
theorem c4_literal_defaulting :
    (∀ (sd : Nat) (v : Int),
      literalTypeConstraint sd (.I64 v) = .cls .integer) ∧
    (∀ (sd bits : Nat),
      literalTypeConstraint sd (.F64 bits) = .cls .float) ∧
    (TypeClass.default_type .integer = some .i64
      ∧ TypeClass.default_type .float = some .f64) ∧
    (∀ (X : Constraints) (n ts : Nat) (c : TypeClass),
      (infer X).errors = [] → (infer X).panicked = false →
      (n, ts) ∈ X.node_symbols →
      assocLookup (infer X).resolved ts = some (.cls c) →
      (n, c.default_type) ∈ (infer X).node_type) ∧
    (∀ (n ts : Nat) (c : TypeClass) (t : Ty),
      c.contains_type t = true →
      (infer ⟨[ts], [(n, ts)],
        [.assert ts (.cls c), .assert ts (.concrete t)]⟩).node_type
        = [(n, some t)]) := by
  refine ⟨fun _ _ => rfl, fun _ _ => rfl, ⟨rfl, rfl⟩, ?_, ?_⟩
  · intro X n ts c he hp hmem hres
    rw [infer_decompose, he, hp]
    simp only [List.isEmpty_nil, Bool.not_false, Bool.and_self, if_true]
    refine List.mem_map.mpr ⟨(n, ts), hmem, ?_⟩
    simp [hres, TypeConstraint.default_type]
  · intro n ts c t hc
    simp [infer, runPass, InferState.process_constraint,
      InferState.set_type_constraint, InferState.set_type, assocLookup,
      assocInsert, unify, hc, solveLoop, InferState.get_type,
      TypeConstraint.default_type]

/-- Witness for `c4_literal_defaulting`: a lone Integer-class symbol defaults
    to `i64` in the node assignment, and an Integer-class symbol annotated
    `u32` narrows to `u32`. -/
theorem c4_witness :
    (10, some Ty.i64) ∈
      (infer ⟨[1], [(10, 1)], [.assert 1 (.cls .integer)]⟩).node_type ∧
    (infer ⟨[1], [(20, 1)],
      [.assert 1 (.cls .integer), .assert 1 (.concrete .u32)]⟩).node_type
      = [(20, some .u32)] :=
  ⟨c4_literal_defaulting.2.2.2.1 ⟨[1], [(10, 1)], [.assert 1 (.cls .integer)]⟩
      10 1 .integer (by decide) (by decide) (by decide) (by decide),
   c4_literal_defaulting.2.2.2.2 20 1 .integer .u32 (by decide)⟩


theorem assocLookup_insert_self {α : Type} (l : List (Nat × α)) (k : Nat)
    (v : α) : assocLookup (assocInsert l k v) k = some v := by
  induction l with
  | nil => simp [assocInsert, assocLookup]
  | cons p r ih =>
    obtain ⟨k', v'⟩ := p
    by_cases hp : k' = k
    · simp [assocInsert, hp, assocLookup]
    · simp [assocInsert, hp, assocLookup, ih]

theorem assocLookup_insert_ne {α : Type} (l : List (Nat × α)) (k k' : Nat)
    (v : α) (h : k' ≠ k) :
    assocLookup (assocInsert l k v) k' = assocLookup l k' := by
  have hk : ¬ (k = k') := fun hh => h hh.symm
  induction l with
  | nil => simp [assocInsert, assocLookup, hk]
  | cons p r ih =>
    obtain ⟨k0, v0⟩ := p
    by_cases hp : k0 = k
    · subst hp
      simp [assocInsert, assocLookup, hk]
    · simp only [assocInsert, if_neg hp, assocLookup, ih]

theorem parse_stage_vals (b : Backend) (cp : Compiler) (s u : Nat) :
    (parse_stage b cp s u).2.store.vals = cp.store.vals := by
  unfold parse_stage
  split
  · rfl
  · split <;> rfl

theorem structure_stage_vals (b : Backend) (cp : Compiler) (u : Nat) :
    (structure_stage b cp u).2.store.vals = cp.store.vals := by
  unfold structure_stage
  split
  · rfl
  · split <;> rfl

theorem processRefs_vals (b : Backend) :
    ∀ (refs : List (Nat × Nat × Nat)) (s : RefsState),
      (processRefs b s refs).2.store.vals = s.store.vals := by
  intro refs
  induction refs with
  | nil => intro s; rfl
  | cons rr rest ih =>
    intro s
    obtain ⟨pu, sym, tag⟩ := rr
    unfold processRefs
    split
    · exact ih s
    · split
      · exact ih s
      · split
        · rfl
        · split
          · rfl
          · dsimp only
            split
            · rfl
            · exact (ih _).trans rfl

theorem drain_vals (nt : List (Nat × TypesRepr × MappingRepr))
    (st : CodeStore) : (drainNewTypes nt st).vals = st.vals := by
  induction nt generalizing st with
  | nil => rfl
  | cons p rest ih => exact (ih _).trans rfl

theorem driver_vals (b : Backend) :
    ∀ (fuel : Nat) (store : CodeStore) (gen : Nat) (queue : List Nat),
      (driver b fuel store gen queue).store.vals = store.vals := by
  intro fuel
  induction fuel with
  | zero => intro store gen queue; rfl
  | succ n ih =>
    intro store gen queue
    unfold driver
    split
    · rfl
    · split
      · rfl
      · dsimp only
        split
        · exact processRefs_vals b _ _
        · exact (ih _ _ _).trans ((drain_vals _ _).trans (processRefs_vals b _ _))

theorem polyfold_vals (syms : List (Nat × SymbolDef)) (st : CodeStore) :
    (syms.foldl
      (fun st p =>
        if p.2.is_polymorphic then
          { st with poly_functions := assocInsert st.poly_functions p.2.id ⟨p.2.unit_id, []⟩ }
        else st)
      st).vals = st.vals := by
  induction syms generalizing st with
  | nil => rfl
  | cons p rest ih =>
    by_cases hp : p.2.is_polymorphic
    · simp only [List.foldl, hp, if_true]
      exact (ih _).trans rfl
    · simp only [List.foldl, hp, if_false]
      exact ih _

theorem typecheck_stage_vals (b : Backend) (fuel : Nat) (cp : Compiler)
    (u : Nat) : (typecheck_stage b fuel cp u).2.store.vals = cp.store.vals := by
  unfold typecheck_stage
  split
  · rfl
  · exact (driver_vals b _ _ _ _).trans ((polyfold_vals _ _).trans rfl)

theorem compileUnits_vals (b : Backend) :
    ∀ (units : List Nat) (cp : Compiler),
      (compileUnits b cp units).2.store.vals = cp.store.vals := by
  intro units
  induction units with
  | nil => intro cp; rfl
  | cons id rest ih =>
    intro cp
    unfold compileUnits
    split
    · rfl
    · exact (ih _).trans rfl

theorem codegen_stage_vals (b : Backend) (fuel : Nat) (cp : Compiler)
    (u : Nat) : (codegen_stage b fuel cp u).2.store.vals = cp.store.vals := by
  unfold codegen_stage
  split
  · rfl
  · exact compileUnits_vals b _ _

theorem initialise_stage_error_vals (b : Backend) (cp : Compiler) (u : Nat)
    (e : String) (h : (initialise_stage b cp u).1 = some e) :
    (initialise_stage b cp u).2.store.vals = cp.store.vals := by
  unfold initialise_stage at h ⊢
  split at h
  · rfl
  · simp at h

theorem initialise_stage_ok_vals (b : Backend) (cp : Compiler) (u : Nat)
    (h : (initialise_stage b cp u).1 = none) :
    ∃ v, (initialise_stage b cp u).2.store.vals
      = assocInsert cp.store.vals u v := by
  unfold initialise_stage at h ⊢
  split at h
  · simp at h
  · exact ⟨_, rfl⟩

theorem lmfei_error_vals (b : Backend) (fuel : Nat) (cp : Compiler)
    (u : Nat) (e : String)
    (h : (load_module_from_expr_internal b fuel cp u).1 = some e) :
    (load_module_from_expr_internal b fuel cp u).2.store.vals
      = cp.store.vals := by
  unfold load_module_from_expr_internal at h ⊢
  split at h
  · next e1 cp1 heq =>
    have h1 := structure_stage_vals b cp u
    rw [heq] at h1
    exact h1
  · next cp1 heq =>
    have h1 := structure_stage_vals b cp u
    rw [heq] at h1
    split at h
    · next e2 cp2 heq2 =>
      have h2 := typecheck_stage_vals b fuel cp1 u
      rw [heq2] at h2
      exact h2.trans h1
    · next cp2 heq2 =>
      have h2 := typecheck_stage_vals b fuel cp1 u
      rw [heq2] at h2
      split at h
      · next e3 cp3 heq3 =>
        have h3 := codegen_stage_vals b fuel cp2 u
        rw [heq3] at h3
        exact (h3.trans h2).trans h1
      · next cp3 heq3 =>
        have h3 := codegen_stage_vals b fuel cp2 u
        rw [heq3] at h3
        exact (initialise_stage_error_vals b cp3 u e h).trans
          ((h3.trans h2).trans h1)

theorem lmfei_ok_vals (b : Backend) (fuel : Nat) (cp : Compiler) (u : Nat)
    (h : (load_module_from_expr_internal b fuel cp u).1 = none) :
    ∃ v, (load_module_from_expr_internal b fuel cp u).2.store.vals
      = assocInsert cp.store.vals u v := by
  unfold load_module_from_expr_internal at h ⊢
  split at h
  · simp at h
  · next cp1 heq =>
    have h1 := structure_stage_vals b cp u
    rw [heq] at h1
    split at h
    · simp at h
    · next cp2 heq2 =>
      have h2 := typecheck_stage_vals b fuel cp1 u
      rw [heq2] at h2
      split at h
      · simp at h
      · next cp3 heq3 =>
        have h3 := codegen_stage_vals b fuel cp2 u
        rw [heq3] at h3
        obtain ⟨v, hv⟩ := initialise_stage_ok_vals b cp3 u h
        exact ⟨v, by rw [hv, (h3.trans h2).trans h1]⟩

theorem load_module_core_error_vals (b : Backend) (fuel : Nat)
    (cp : Compiler) (sid uid : Nat) (e : String)
    (h : (load_module_core b fuel cp sid uid).1 = Except.error e) :
    (load_module_core b fuel cp sid uid).2.store.vals = cp.store.vals := by
  unfold load_module_core at h ⊢
  split at h
  · next e1 cp1 heq =>
    have h1 := parse_stage_vals b cp sid uid
    rw [heq] at h1
    exact h1
  · next cp1 heq =>
    have h1 := parse_stage_vals b cp sid uid
    rw [heq] at h1
    split at h
    · next e2 cp2 heq2 =>
      have h2 := lmfei_error_vals b fuel cp1 uid e2 (by rw [heq2])
      rw [heq2] at h2
      exact h2.trans h1
    · next cp2 heq2 =>
      have h2 := lmfei_ok_vals b fuel cp1 uid (by rw [heq2])
      rw [heq2] at h2
      obtain ⟨v, hv⟩ := h2
      split at h
      · next heq3 =>
        rw [hv, assocLookup_insert_self] at heq3
        exact absurd heq3 (by simp)
      · simp at h

/-- C1 (counterexample): a `load_module` call that fails in the structure
    pass returns an error, yet the code store retains both the new source
    text (source id 0) and the new unit's expression (unit id 1): the failure
    has mutated the code store, contradicting all-or-nothing insertion. -/
theorem c1_counterexample :
    (load_module structureFailBackend 5 freshCompiler "x").1
      = .error "malformed construct" ∧
    assocLookup
      (load_module structureFailBackend 5 freshCompiler "x").2.store.exprs 1
      = some voidExpr ∧
    assocLookup
      (load_module structureFailBackend 5 freshCompiler "x").2.store.code 0
      = some "x" ∧
    assocLookup freshCompiler.store.exprs 1 = none ∧
    assocLookup freshCompiler.store.code 0 = none :=
  ⟨rfl, rfl, rfl, rfl, rfl⟩

/-- C1 (amended): when `load_module` returns an error, no run value is ever
    stored — the `vals` table is left exactly as it was, so in particular the
    new unit id has no value; artifacts of the stages that completed before
    the failure (the source text, the expression, and any node graphs, types
    or mappings inserted by completed stages) may remain in the code store. -/
theorem c1_amended_failure_no_value (b : Backend) (fuel : Nat)
    (cp : Compiler) (code : String) (e : String)
    (h : (load_module b fuel cp code).1 = Except.error e) :
    (load_module b fuel cp code).2.store.vals = cp.store.vals := by
  unfold load_module at h ⊢
  exact load_module_core_error_vals b fuel _ _ _ e h

/-- Witness for `c1_amended_failure_no_value`: the failing-structure backend
    leaves the (empty) run-value table empty. -/
theorem c1_witness :
    (load_module structureFailBackend 5 freshCompiler "x").2.store.vals
      = freshCompiler.store.vals :=
  c1_amended_failure_no_value structureFailBackend 5 freshCompiler "x"
    "malformed construct" rfl

theorem instLookup_register_self (store : CodeStore) (sym tag iu isym : Nat)
    (pf : PolyFunction) (store2 : CodeStore)
    (hst : store2 = { store with poly_functions := assocInsert store.poly_functions sym ⟨pf.source_unit, assocInsert pf.instances tag (iu, isym)⟩ }) :
    instLookup store2 sym tag = some (iu, isym) := by
  subst hst
  unfold instLookup
  rw [assocLookup_insert_self]
  exact assocLookup_insert_self _ _ _

theorem instLookup_register_other (store : CodeStore) (sym tag iu isym : Nat)
    (pf : PolyFunction) (store2 : CodeStore)
    (hpf : assocLookup store.poly_functions sym = some pf)
    (hst : store2 = { store with poly_functions := assocInsert store.poly_functions sym ⟨pf.source_unit, assocInsert pf.instances tag (iu, isym)⟩ }) :
    ∀ s t, ¬ (s = sym ∧ t = tag) →
      instLookup store2 s t = instLookup store s t := by
  subst hst
  intro s t hne
  unfold instLookup
  by_cases hs : s = sym
  · subst hs
    rw [assocLookup_insert_self, hpf]
    have ht : t ≠ tag := fun ht => hne ⟨rfl, ht⟩
    simp only [Option.bind]
    exact assocLookup_insert_ne _ _ _ _ ht
  · rw [assocLookup_insert_ne _ _ _ _ hs]
theorem processRefs_registry (b : Backend) :
    ∀ (refs : List (Nat × Nat × Nat)) (s : RefsState),
      ∃ created : List (Nat × Nat),
        (processRefs b s refs).2.log = s.log ++ created ∧
        created.Nodup ∧
        (∀ p ∈ created, instLookup s.store p.1 p.2 = none) ∧
        (∀ p ∈ created,
          instLookup (processRefs b s refs).2.store p.1 p.2 ≠ none) ∧
        (∀ sym tag e, instLookup s.store sym tag = some e →
          instLookup (processRefs b s refs).2.store sym tag = some e) := by
  intro refs
  induction refs with
  | nil =>
    intro s
    exact ⟨[], by simp [processRefs], List.nodup_nil, by simp, by simp,
      fun _ _ _ h => h⟩
  | cons rr rest ih =>
    intro s
    obtain ⟨pu, sym, tag⟩ := rr
    unfold processRefs
    split
    · exact ih s
    · split
      · exact ih s
      · split
        · exact ⟨[], by simp, List.nodup_nil, by simp, by simp,
            fun _ _ _ h => h⟩
        · split
          · exact ⟨[], by simp, List.nodup_nil, by simp, by simp,
              fun _ _ _ h => h⟩
          · dsimp only
            split
            · exact ⟨[], by simp, List.nodup_nil, by simp, by simp,
                fun _ _ _ h => h⟩
            · rename_i x4 pf hpf x3 htag x2 tys htys x1 pd hpd x0 itypes imapping isym gen2 hok
              obtain ⟨created2, hlog, hnodup, hnone, hne, hmono⟩ :=
                ih ⟨{ s.store with poly_functions := assocInsert s.store.poly_functions sym ⟨pf.source_unit, assocInsert pf.instances tag (s.gen, isym)⟩ }, gen2, s.queue_adds ++ [s.gen], s.new_types ++ [(s.gen, itypes, imapping)], s.log ++ [(sym, tag)]⟩
              have hself : instLookup { s.store with poly_functions := assocInsert s.store.poly_functions sym ⟨pf.source_unit, assocInsert pf.instances tag (s.gen, isym)⟩ } sym tag = some (s.gen, isym) :=
                instLookup_register_self s.store sym tag s.gen isym pf _ rfl
              have hother := instLookup_register_other s.store sym tag s.gen isym pf _ hpf rfl
              have horig : instLookup s.store sym tag = none := by
                simp only [instLookup, hpf, Option.bind]
                exact htag
              refine ⟨(sym, tag) :: created2, hlog.trans (by simp), ?_, ?_, ?_, ?_⟩
              · refine List.nodup_cons.mpr ⟨?_, hnodup⟩
                intro hmem
                exact absurd (hself.symm.trans (hnone _ hmem)) (by simp)
              · intro p hp
                rcases List.mem_cons.mp hp with rfl | hp2
                · exact horig
                · by_cases hpe : p.1 = sym ∧ p.2 = tag
                  · obtain ⟨h1, h2⟩ := hpe
                    rw [h1, h2]
                    exact horig
                  · exact (hother p.1 p.2 hpe).symm.trans (hnone _ hp2)
              · intro p hp
                rcases List.mem_cons.mp hp with rfl | hp2
                · intro hc
                  exact absurd
                    ((hmono sym tag (s.gen, isym) hself).symm.trans hc) (by simp)
                · exact hne _ hp2
              · intro sy ta e hsome
                by_cases hpe : sy = sym ∧ ta = tag
                · obtain ⟨rfl, rfl⟩ := hpe
                  rw [horig] at hsome
                  cases hsome
                · exact hmono sy ta e ((hother sy ta hpe).trans hsome)

theorem drain_poly (nt : List (Nat × TypesRepr × MappingRepr))
    (st : CodeStore) :
    (drainNewTypes nt st).poly_functions = st.poly_functions := by
  induction nt generalizing st with
  | nil => rfl
  | cons p rest ih => exact (ih _).trans rfl

theorem drain_instLookup (nt : List (Nat × TypesRepr × MappingRepr))
    (st : CodeStore) (s t : Nat) :
    instLookup (drainNewTypes nt st) s t = instLookup st s t := by
  unfold instLookup
  rw [drain_poly]

/-- C8: across the whole breadth-first driver run
    (`typecheck_new_polymorphic_instances`), the log of materialized
    (polymorphic symbol, signature) pairs has no duplicates, each
    materialized pair had no registered instance in the starting code store,
    each ends up registered in the final store, and every instance already
    registered survives untouched — so at most one instance unit is ever
    created per (symbol, signature) over the lifetime of the code store. -/
theorem c8_poly_instance_at_most_once (b : Backend) :
    ∀ (fuel : Nat) (store : CodeStore) (gen : Nat) (queue : List Nat),
      (driver b fuel store gen queue).log.Nodup ∧
      (∀ p ∈ (driver b fuel store gen queue).log,
        instLookup store p.1 p.2 = none) ∧
      (∀ p ∈ (driver b fuel store gen queue).log,
        instLookup (driver b fuel store gen queue).store p.1 p.2 ≠ none) ∧
      (∀ sym tag e, instLookup store sym tag = some e →
        instLookup (driver b fuel store gen queue).store sym tag = some e) := by
  intro fuel
  induction fuel with
  | zero =>
    intro store gen queue
    exact ⟨List.nodup_nil, by simp [driver], by simp [driver],
      fun _ _ _ h => h⟩
  | succ n ih =>
    intro store gen queue
    unfold driver
    split
    · exact ⟨List.nodup_nil, by simp, by simp, fun _ _ _ h => h⟩
    · split
      · exact ⟨List.nodup_nil, by simp, by simp, fun _ _ _ h => h⟩
      · dsimp only
        rename_i psid qrest x1 mapping hmap
        obtain ⟨created, hlog, hnodup, hnone, hne, hmono⟩ :=
          processRefs_registry b mapping.polymorphic_references
            ⟨store, gen, [], [], []⟩
        have hlog2 : (processRefs b ⟨store, gen, [], [], []⟩
            mapping.polymorphic_references).2.log = created :=
          hlog.trans (List.nil_append created)
        split
        · refine ⟨?_, ?_, ?_, ?_⟩
          · dsimp only
            rw [hlog2]
            exact hnodup
          · intro p hp
            dsimp only at hp
            rw [hlog2] at hp
            exact hnone p hp
          · intro p hp
            dsimp only at hp ⊢
            rw [hlog2] at hp
            exact hne p hp
          · intro sym tag e hs
            dsimp only
            exact hmono sym tag e hs
        · obtain ⟨ihnodup, ihnone, ihne, ihmono⟩ :=
            ih (drainNewTypes
                (processRefs b ⟨store, gen, [], [], []⟩
                  mapping.polymorphic_references).2.new_types
                (processRefs b ⟨store, gen, [], [], []⟩
                  mapping.polymorphic_references).2.store)
              (processRefs b ⟨store, gen, [], [], []⟩
                mapping.polymorphic_references).2.gen
              (qrest ++ (processRefs b ⟨store, gen, [], [], []⟩
                mapping.polymorphic_references).2.queue_adds)
          refine ⟨?_, ?_, ?_, ?_⟩
          · dsimp only
            rw [hlog2]
            refine List.Nodup.append hnodup ihnodup ?_
            intro p hp1 hp2
            have h1 := hne p hp1
            have h2 := ihnone p hp2
            rw [drain_instLookup] at h2
            exact h1 h2
          · intro p hp
            dsimp only at hp
            rw [hlog2] at hp
            rcases List.mem_append.mp hp with h | h
            · exact hnone p h
            · have h2 := ihnone p h
              rw [drain_instLookup] at h2
              cases hx : instLookup store p.1 p.2 with
              | none => rfl
              | some e =>
                have h3 := hmono p.1 p.2 e hx
                exact absurd (h3.symm.trans h2) (by simp)
          · intro p hp
            dsimp only at hp ⊢
            rw [hlog2] at hp
            rcases List.mem_append.mp hp with h | h
            · have h1 := hne p h
              cases hx : instLookup
                  (processRefs b ⟨store, gen, [], [], []⟩
                    mapping.polymorphic_references).2.store p.1 p.2 with
              | none => exact absurd hx h1
              | some e =>
                have h2 : instLookup (drainNewTypes
                    (processRefs b ⟨store, gen, [], [], []⟩
                      mapping.polymorphic_references).2.new_types
                    (processRefs b ⟨store, gen, [], [], []⟩
                      mapping.polymorphic_references).2.store) p.1 p.2
                    = some e := by
                  rw [drain_instLookup]
                  exact hx
                have h3 := ihmono p.1 p.2 e h2
                intro hc
                exact absurd (h3.symm.trans hc) (by simp)
            · exact ihne p h
          · intro sym tag e hsome
            dsimp only
            have h1 := hmono sym tag e hsome
            have h2 : instLookup (drainNewTypes
                (processRefs b ⟨store, gen, [], [], []⟩
                  mapping.polymorphic_references).2.new_types
                (processRefs b ⟨store, gen, [], [], []⟩
                  mapping.polymorphic_references).2.store) sym tag
                = some e := by
              rw [drain_instLookup]
              exact h1
            exact ihmono sym tag e h2

/-- Witness for `c8_poly_instance_at_most_once`: a concrete driver run that
    materializes exactly one new instance, (symbol 8, signature 5), while the
    pre-existing instance of (symbol 7, signature 3) is preserved. -/
theorem c8_witness :
    (driver c8Backend 4 c8Store 50 [100]).log.Nodup ∧
    (∀ p ∈ (driver c8Backend 4 c8Store 50 [100]).log,
      instLookup c8Store p.1 p.2 = none) ∧
    instLookup (driver c8Backend 4 c8Store 50 [100]).store 7 3
      = some (9, 9) :=
  ⟨(c8_poly_instance_at_most_once c8Backend 4 c8Store 50 [100]).1,
   (c8_poly_instance_at_most_once c8Backend 4 c8Store 50 [100]).2.1,
   (c8_poly_instance_at_most_once c8Backend 4 c8Store 50 [100]).2.2.2
     7 3 (9, 9) rfl⟩

theorem drop_take_one {args : List SrcExpr} {n : Nat} {a : SrcExpr}
    (h : args[n]? = some a) : (args.drop n).take 1 = [a] := by
  have h1 := List.getElem?_eq_some.mp h
  rw [List.drop_eq_getElem_cons h1.1]
  simp [h1.2]

mutual
theorem templateExpr_sound (args : List SrcExpr) :
    ∀ (e : SrcExpr) (n : Nat) (r : SrcExpr) (n2 : Nat),
      templateExpr args e n = some (r, n2) →
      n2 = n + dollarCount e ∧
      readback e r = (args.drop n).take (dollarCount e)
  | .construct loc name es, n, r, n2 => by
    intro h
    unfold templateExpr at h
    split at h
    · rename_i hname
      subst hname
      split at h
      · rename_i a hga
        simp only [Option.some.injEq, Prod.mk.injEq] at h
        obtain ⟨rfl, rfl⟩ := h
        exact ⟨rfl, (drop_take_one hga).symm⟩
      · cases h
    · rename_i hname
      split at h
      · rename_i cs n' htc
        simp only [Option.some.injEq, Prod.mk.injEq] at h
        obtain ⟨rfl, rfl⟩ := h
        obtain ⟨hn, hrb⟩ := templateChildren_sound args es n cs n' htc
        constructor
        · simp only [dollarCount]
          rw [if_neg hname]
          exact hn
        · simp only [readback, dollarCount]
          rw [if_neg hname, if_neg hname]
          exact hrb
      · cases h
  | .leaf loc v, n, r, n2 => by
    intro h
    simp only [templateExpr, Option.some.injEq, Prod.mk.injEq] at h
    obtain ⟨rfl, rfl⟩ := h
    simp [dollarCount, readback]

theorem templateChildren_sound (args : List SrcExpr) :
    ∀ (es : List SrcExpr) (n : Nat) (rs : List SrcExpr) (n2 : Nat),
      templateChildren args es n = some (rs, n2) →
      n2 = n + dollarCountList es ∧
      readbackList es rs = (args.drop n).take (dollarCountList es)
  | [], n, rs, n2 => by
    intro h
    simp only [templateChildren, Option.some.injEq, Prod.mk.injEq] at h
    obtain ⟨rfl, rfl⟩ := h
    simp [dollarCountList, readbackList]
  | e :: es, n, rs, n2 => by
    intro h
    simp only [templateChildren] at h
    split at h
    · rename_i e2 nmid hte
      split at h
      · rename_i es2 nfin htc
        simp only [Option.some.injEq, Prod.mk.injEq] at h
        obtain ⟨rfl, rfl⟩ := h
        obtain ⟨h1n, h1rb⟩ := templateExpr_sound args e n e2 nmid hte
        obtain ⟨h2n, h2rb⟩ := templateChildren_sound args es nmid es2 nfin htc
        constructor
        · rw [h2n, h1n]
          simp only [dollarCountList]
          omega
        · simp only [readbackList, dollarCountList]
          rw [h1rb, h2rb, h1n, List.take_add, List.drop_drop]
      · cases h
    · cases h
end

mutual
theorem templateExpr_bound (args : List SrcExpr) :
    ∀ (e : SrcExpr) (n : Nat) (r : SrcExpr) (n2 : Nat),
      templateExpr args e n = some (r, n2) →
      dollarCount e = 0 ∨ n + dollarCount e ≤ args.length
  | .construct loc name es, n, r, n2 => by
    intro h
    unfold templateExpr at h
    split at h
    · rename_i hname
      subst hname
      split at h
      · rename_i a hga
        right
        have hlt := (List.getElem?_eq_some.mp hga).1
        show n + 1 ≤ args.length
        omega
      · cases h
    · rename_i hname
      split at h
      · rename_i cs n' htc
        have hb := templateChildren_bound args es n cs n' htc
        simp only [dollarCount]
        rw [if_neg hname]
        exact hb
      · cases h
  | .leaf loc v, n, r, n2 => by
    intro h
    left
    rfl

theorem templateChildren_bound (args : List SrcExpr) :
    ∀ (es : List SrcExpr) (n : Nat) (rs : List SrcExpr) (n2 : Nat),
      templateChildren args es n = some (rs, n2) →
      dollarCountList es = 0 ∨ n + dollarCountList es ≤ args.length
  | [], n, rs, n2 => by
    intro h
    left
    rfl
  | e :: es, n, rs, n2 => by
    intro h
    simp only [templateChildren] at h
    split at h
    · rename_i e2 nmid hte
      split at h
      · rename_i es2 nfin htc
        have h1 := templateExpr_bound args e n e2 nmid hte
        have h2 := templateChildren_bound args es nmid es2 nfin htc
        have hmid := (templateExpr_sound args e n e2 nmid hte).1
        rw [hmid] at h2
        simp only [dollarCountList]
        omega
      · cases h
    · cases h
end

mutual
theorem templateExpr_total (args : List SrcExpr) :
    ∀ (e : SrcExpr) (n : Nat),
      (dollarCount e = 0 ∨ n + dollarCount e ≤ args.length) →
      (templateExpr args e n).isSome
  | .construct loc name es, n => by
    intro hb
    unfold templateExpr
    split
    · rename_i hname
      subst hname
      have hb2 : (1 : Nat) = 0 ∨ n + 1 ≤ args.length := hb
      have hlt : n < args.length := by omega
      cases hga : args[n]? with
      | none =>
        exfalso
        have := List.getElem?_eq_none_iff.mp hga
        omega
      | some a => rfl
    · rename_i hname
      have hb2 : dollarCountList es = 0 ∨ n + dollarCountList es ≤ args.length := by
        simp only [dollarCount] at hb
        rw [if_neg hname] at hb
        exact hb
      have h2 := templateChildren_total args es n hb2
      cases htc : templateChildren args es n with
      | none =>
        rw [htc] at h2
        simp at h2
      | some p =>
        obtain ⟨cs, nn⟩ := p
        simp [htc]
  | .leaf loc v, n => by
    intro hb
    simp [templateExpr]

theorem templateChildren_total (args : List SrcExpr) :
    ∀ (es : List SrcExpr) (n : Nat),
      (dollarCountList es = 0 ∨ n + dollarCountList es ≤ args.length) →
      (templateChildren args es n).isSome
  | [], n => by
    intro hb
    simp [templateChildren]
  | e :: es, n => by
    intro hb
    simp only [dollarCountList] at hb
    have hb1 : dollarCount e = 0 ∨ n + dollarCount e ≤ args.length := by omega
    have h1 := templateExpr_total args e n hb1
    simp only [templateChildren]
    cases hte : templateExpr args e n with
    | none =>
      rw [hte] at h1
      simp at h1
    | some p =>
      obtain ⟨e2, nmid⟩ := p
      have hmid := (templateExpr_sound args e n e2 nmid hte).1
      have hb2 : dollarCountList es = 0
          ∨ nmid + dollarCountList es ≤ args.length := by
        rw [hmid]
        omega
      have h2 := templateChildren_total args es nmid hb2
      cases htc : templateChildren args es nmid with
      | none =>
        rw [htc] at h2
        simp at h2
      | some q =>
        obtain ⟨es2, nfin⟩ := q
        simp [hte, htc]
end

mutual
theorem templateExpr_id (args : List SrcExpr) :
    ∀ (e : SrcExpr) (n : Nat), dollarCount e = 0 →
      templateExpr args e n = some (e, n)
  | .construct loc name es, n => by
    intro hd
    unfold templateExpr
    split
    · rename_i hname
      subst hname
      simp [dollarCount] at hd
    · rename_i hname
      have hd2 : dollarCountList es = 0 := by
        simp only [dollarCount] at hd
        rw [if_neg hname] at hd
        exact hd
      rw [templateChildren_id args es n hd2]
  | .leaf loc v, n => by
    intro hd
    rfl

theorem templateChildren_id (args : List SrcExpr) :
    ∀ (es : List SrcExpr) (n : Nat), dollarCountList es = 0 →
      templateChildren args es n = some (es, n)
  | [], n => by
    intro hd
    rfl
  | e :: es, n => by
    intro hd
    simp only [dollarCountList] at hd
    simp only [templateChildren]
    rw [templateExpr_id args e n (by omega)]
    dsimp only
    rw [templateChildren_id args es n (by omega)]
end

/-- C9: `template_quote` substitutes the `$`-marked constructs with the
    arguments consumed left-to-right in depth-first order: a template with no
    `$` markers is reproduced structurally unchanged (in particular
    `template_quote(E, [])` returns a tree equal to `E`), and reading back
    the subtrees of the result at the template's `$`-positions, in
    depth-first left-to-right order, yields exactly the first
    `dollarCount e` supplied arguments in order. -/
theorem c9_template_quote_substitution :
    (∀ (e : SrcExpr) (args : List SrcExpr), dollarCount e = 0 →
      template_quote e args = some e) ∧
    (∀ (e : SrcExpr) (args : List SrcExpr) (r : SrcExpr),
      template_quote e args = some r →
      readback e r = args.take (dollarCount e)) := by
  constructor
  · intro e args hd
    unfold template_quote
    rw [templateExpr_id args e 0 hd]
    rfl
  · intro e args r h
    unfold template_quote at h
    cases hte : templateExpr args e 0 with
    | none =>
      rw [hte] at h
      cases h
    | some p =>
      obtain ⟨r2, n2⟩ := p
      rw [hte] at h
      simp at h
      subst h
      have h2 := (templateExpr_sound args e 0 r2 n2 hte).2
      simpa using h2

/-- Witness for `c9_template_quote_substitution`: a `$`-free template is
    reproduced unchanged with an empty argument list, and a one-`$` template
    reads back exactly its one argument. -/
theorem c9_witness :
    template_quote (SrcExpr.construct 0 "+" [.leaf 1 (.litInt 1)]) []
      = some (SrcExpr.construct 0 "+" [.leaf 1 (.litInt 1)]) ∧
    readback (SrcExpr.construct 0 "f" [.construct 1 "$" []])
        (SrcExpr.construct 0 "f" [.leaf 5 (.litInt 7)])
      = [SrcExpr.leaf 5 (.litInt 7)] := by
  constructor
  · exact c9_template_quote_substitution.1 _ [] rfl
  · have h := c9_template_quote_substitution.2
      (SrcExpr.construct 0 "f" [.construct 1 "$" []])
      [SrcExpr.leaf 5 (.litInt 7)]
      (SrcExpr.construct 0 "f" [.leaf 5 (.litInt 7)]) rfl
    simpa using h

/-- C10: `template_quote` indexes the argument slice without a bounds check:
    whenever the template contains strictly more `$` constructs than there
    are arguments the run hits an out-of-bounds index and panics (modelled by
    `none`), and conversely the call returns an expression whenever the
    number of `$` constructs is at most the argument count. -/
theorem c10_template_quote_bounds :
    (∀ (e : SrcExpr) (args : List SrcExpr),
      args.length < dollarCount e → template_quote e args = none) ∧
    (∀ (e : SrcExpr) (args : List SrcExpr),
      dollarCount e ≤ args.length → (template_quote e args).isSome) := by
  constructor
  · intro e args hgt
    unfold template_quote
    cases hte : templateExpr args e 0 with
    | none => rfl
    | some p =>
      exfalso
      obtain ⟨r, n2⟩ := p
      have hb := templateExpr_bound args e 0 r n2 hte
      omega
  · intro e args hle
    unfold template_quote
    have ht := templateExpr_total args e 0 (Or.inr (by omega))
    cases hte : templateExpr args e 0 with
    | none =>
      rw [hte] at ht
      simp at ht
    | some p => simp

/-- Witness for `c10_template_quote_bounds`: a lone `$` with no arguments
    panics, and with one argument succeeds. -/
theorem c10_witness :
    template_quote (SrcExpr.construct 0 "$" []) [] = none ∧
    (template_quote (SrcExpr.construct 0 "$" [])
      [SrcExpr.leaf 1 .litVoid]).isSome := by
  constructor
  · exact c10_template_quote_bounds.1 _ [] (by decide)
  · exact c10_template_quote_bounds.2 _ _ (by decide)

theorem unify_mem (a b c : TypeConstraint) (h : unify a b = some c) :
    c = a ∨ c = b := by
  cases a <;> cases b <;> simp only [unify] at h <;> split at h <;> simp_all

theorem set_type_constraint_errors (st : InferState) (ts : Nat)
    (tc : TypeConstraint) :
    ∃ suf, (st.set_type_constraint ts tc).errors = st.errors ++ suf := by
  unfold InferState.set_type_constraint
  split
  · split
    · exact ⟨[], by simp⟩
    · exact ⟨["conflicting types inferred"], rfl⟩
  · exact ⟨[], by simp⟩

theorem process_constraint_errors (st : InferState) (c : Constraint) :
    ∃ suf, ((st.process_constraint c).1).errors = st.errors ++ suf := by
  cases c with
  | assert ts tc => exact set_type_constraint_errors st ts tc
  | equalivalent a b =>
    simp only [InferState.process_constraint]
    split
    · exact set_type_constraint_errors _ _ _
    · split
      · exact set_type_constraint_errors _ _ _
      · exact ⟨[], by simp⟩
  | convert val into_type =>
    simp only [InferState.process_constraint]
    split
    · split
      · exact ⟨[], by simp⟩
      · exact ⟨["type conversion not supported"], rfl⟩
    · exact ⟨[], by simp⟩

theorem assertFold_errors (cs : List Constraint) :
    ∀ st : InferState, ∃ suf, (assertFold st cs).errors = st.errors ++ suf := by
  induction cs with
  | nil => intro st; exact ⟨[], by simp [assertFold]⟩
  | cons c rest ih =>
    intro st
    obtain ⟨s1, h1⟩ := process_constraint_errors st c
    obtain ⟨s2, h2⟩ := ih ((st.process_constraint c).1)
    refine ⟨s1 ++ s2, ?_⟩
    simp only [assertFold, List.foldl] at h2 ⊢
    rw [h2, h1, List.append_assoc]

theorem runPass_assertOnly (cs : List Constraint) :
    ∀ st : InferState, (∀ c ∈ cs, c.isAssert = true) →
      runPass st cs = (assertFold st cs, []) := by
  induction cs with
  | nil => intro st _; rfl
  | cons c rest ih =>
    intro st hall
    cases c with
    | assert ts tc =>
      have hrest := ih (st.set_type_constraint ts tc)
        (fun d hd => hall d (List.mem_cons_of_mem _ hd))
      simp only [runPass, InferState.process_constraint]
      rw [hrest]
      simp [assertFold, InferState.process_constraint]
    | equalivalent a b =>
      exact absurd (hall _ (List.mem_cons_self _ _)) (by simp [Constraint.isAssert])
    | convert v t =>
      exact absurd (hall _ (List.mem_cons_self _ _)) (by simp [Constraint.isAssert])

theorem solveLoop_nil (fuel : Nat) (st : InferState) :
    solveLoop fuel st [] = (st, []) := by
  cases fuel with
  | zero => rfl
  | succ n => simp [solveLoop]

theorem tcFor_cons_assert (ts : Nat) (tc : TypeConstraint)
    (rest : List Constraint) (k : Nat) :
    tcFor (Constraint.assert ts tc :: rest) k
      = if ts = k then tc :: tcFor rest k else tcFor rest k := by
  by_cases h : ts = k
  · simp [tcFor, List.filterMap_cons, h]
  · simp [tcFor, List.filterMap_cons, h]

theorem assertFold_lookup (cs : List Constraint) :
    ∀ st : InferState, (∀ c ∈ cs, c.isAssert = true) →
      (assertFold st cs).errors = st.errors →
      ∀ k, meetFold (assocLookup st.resolved k) (tcFor cs k)
        = some (assocLookup (assertFold st cs).resolved k) := by
  induction cs with
  | nil => intro st _ _ k; simp [tcFor, meetFold, assertFold]
  | cons c rest ih =>
    intro st hall herr k
    cases c with
    | equalivalent a b =>
      exact absurd (hall _ (List.mem_cons_self _ _)) (by simp [Constraint.isAssert])
    | convert v t =>
      exact absurd (hall _ (List.mem_cons_self _ _)) (by simp [Constraint.isAssert])
    | assert ts tc =>
      have hallr : ∀ d ∈ rest, d.isAssert = true :=
        fun d hd => hall d (List.mem_cons_of_mem _ hd)
      have hfold : assertFold st (Constraint.assert ts tc :: rest)
          = assertFold (st.set_type_constraint ts tc) rest := by
        simp [assertFold, InferState.process_constraint]
      rw [hfold] at herr ⊢
      obtain ⟨s1, h1⟩ := set_type_constraint_errors st ts tc
      obtain ⟨s2, h2⟩ := assertFold_errors rest (st.set_type_constraint ts tc)
      have hnil : s1 = [] ∧ s2 = [] := by
        rw [h2, h1, List.append_assoc] at herr
        have hlen := congrArg List.length herr
        rw [List.length_append] at hlen
        have hz : (s1 ++ s2).length = 0 := by omega
        exact List.append_eq_nil.mp (List.eq_nil_of_length_eq_zero hz)
      have hse : (st.set_type_constraint ts tc).errors = st.errors := by
        rw [h1, hnil.1]
        simp
      have herr2 : (assertFold (st.set_type_constraint ts tc) rest).errors
          = (st.set_type_constraint ts tc).errors := herr.trans hse.symm
      rw [tcFor_cons_assert]
      cases hlk : assocLookup st.resolved ts with
      | none =>
        have hst' : (st.set_type_constraint ts tc).resolved
            = assocInsert st.resolved ts tc := by
          simp [InferState.set_type_constraint, hlk]
        by_cases hk : ts = k
        · subst hk
          rw [if_pos rfl, hlk]
          have hres := ih (st.set_type_constraint ts tc) hallr herr2 ts
          rw [hst', assocLookup_insert_self] at hres
          exact hres
        · rw [if_neg hk]
          have hres := ih (st.set_type_constraint ts tc) hallr herr2 k
          rw [hst', assocLookup_insert_ne _ _ _ _ (fun hh => hk hh.symm)] at hres
          exact hres
      | some prev =>
        cases hu : unify prev tc with
        | some u =>
          have hst' : (st.set_type_constraint ts tc).resolved
              = assocInsert st.resolved ts u := by
            simp [InferState.set_type_constraint, hlk, hu]
          by_cases hk : ts = k
          · subst hk
            rw [if_pos rfl, hlk]
            show (match unify prev tc with
              | some m => meetFold (some m) (tcFor rest ts)
              | none => none) = _
            rw [hu]
            have hres := ih (st.set_type_constraint ts tc) hallr herr2 ts
            rw [hst', assocLookup_insert_self] at hres
            exact hres
          · rw [if_neg hk]
            have hres := ih (st.set_type_constraint ts tc) hallr herr2 k
            rw [hst', assocLookup_insert_ne _ _ _ _ (fun hh => hk hh.symm)] at hres
            exact hres
        | none =>
          exfalso
          have hbad : (st.set_type_constraint ts tc).errors
              = st.errors ++ ["conflicting types inferred"] := by
            simp [InferState.set_type_constraint, hlk, hu]
          rw [hbad] at hse
          have hlen := congrArg List.length hse
          simp at hlen

theorem meetFold_concrete_acc (l : List TypeConstraint) :
    ∀ (t : Ty) (r : Option TypeConstraint),
      meetFold (some (.concrete t)) l = some r → r = some (.concrete t) := by
  induction l with
  | nil =>
    intro t r h
    simp [meetFold] at h
    exact h.symm
  | cons tc rest ih =>
    intro t r h
    simp only [meetFold] at h
    split at h
    · rename_i m hm
      have hmt : m = .concrete t := by
        cases tc with
        | concrete t2 =>
          simp only [unify] at hm
          split at hm <;> simp_all
        | cls c =>
          simp only [unify] at hm
          split at hm <;> simp_all
      subst hmt
      exact ih t r h
    · cases h

theorem meetFold_concrete_mem (l : List TypeConstraint) :
    ∀ (acc : Option TypeConstraint) (t : Ty) (r : Option TypeConstraint),
      meetFold acc l = some r → (TypeConstraint.concrete t) ∈ l →
      r = some (.concrete t) := by
  induction l with
  | nil =>
    intro acc t r _ hmem
    simp at hmem
  | cons tc rest ih =>
    intro acc t r h hmem
    rcases List.mem_cons.mp hmem with heq | hmem2
    · subst heq
      cases acc with
      | none => exact meetFold_concrete_acc rest t r h
      | some prev =>
        simp only [meetFold] at h
        split at h
        · rename_i m hm
          have hmt : m = .concrete t := by
            cases prev with
            | concrete p =>
              simp only [unify] at hm
              split at hm <;> simp_all
            | cls c =>
              simp only [unify] at hm
              split at hm <;> simp_all
          subst hmt
          exact meetFold_concrete_acc rest t r h
        · cases h
    · cases acc with
      | none => exact ih (some tc) t r h hmem2
      | some prev =>
        simp only [meetFold] at h
        split at h
        · rename_i m hm
          exact ih (some m) t r h hmem2
        · cases h

theorem meetFold_class_acc (l : List TypeConstraint) :
    ∀ (c : TypeClass) (r : Option TypeConstraint),
      meetFold (some (.cls c)) l = some r →
      (∀ x ∈ l, ∃ c2, x = .cls c2) →
      r = some (.cls c) ∧ ∀ c2, (TypeConstraint.cls c2) ∈ l → c2 = c := by
  induction l with
  | nil =>
    intro c r h _
    simp [meetFold] at h
    exact ⟨h.symm, by simp⟩
  | cons tc rest ih =>
    intro c r h hall
    obtain ⟨c2, rfl⟩ := hall tc (List.mem_cons_self _ _)
    simp only [meetFold, unify] at h
    split at h
    · rename_i m hcc
      split at hcc
      · rename_i hceq
        subst hceq
        have hm : m = TypeConstraint.cls c := by
          injection hcc with hcc2
          exact hcc2.symm
        subst hm
        obtain ⟨hr, hmem⟩ := ih c r h
          (fun x hx => hall x (List.mem_cons_of_mem _ hx))
        refine ⟨hr, ?_⟩
        intro c3 hc3
        rcases List.mem_cons.mp hc3 with heq | hm2
        · exact (TypeConstraint.cls.inj heq)
        · exact hmem c3 hm2
      · cases hcc
    · cases h

theorem meetFold_perm (l1 l2 : List TypeConstraint) (hperm : l1.Perm l2)
    (r1 r2 : Option TypeConstraint)
    (h1 : meetFold none l1 = some r1) (h2 : meetFold none l2 = some r2) :
    r1 = r2 := by
  by_cases hc : ∃ t, (TypeConstraint.concrete t) ∈ l1
  · obtain ⟨t, ht⟩ := hc
    rw [meetFold_concrete_mem l1 none t r1 h1 ht,
        meetFold_concrete_mem l2 none t r2 h2 (hperm.mem_iff.mp ht)]
  · push_neg at hc
    have hall1 : ∀ x ∈ l1, ∃ c2, x = TypeConstraint.cls c2 := by
      intro x hx
      cases x with
      | concrete t => exact absurd hx (hc t)
      | cls c => exact ⟨c, rfl⟩
    have hall2 : ∀ x ∈ l2, ∃ c2, x = TypeConstraint.cls c2 :=
      fun x hx => hall1 x (hperm.mem_iff.mpr hx)
    cases l1 with
    | nil =>
      have h0 : l2 = [] := hperm.symm.eq_nil
      subst h0
      simp [meetFold] at h1 h2
      rw [← h1, ← h2]
    | cons x l1t =>
      obtain ⟨c, rfl⟩ := hall1 x (List.mem_cons_self _ _)
      obtain ⟨hr1, hmem1⟩ := meetFold_class_acc l1t c r1 h1
        (fun y hy => hall1 y (List.mem_cons_of_mem _ hy))
      cases hl2 : l2 with
      | nil =>
        rw [hl2] at hperm
        have := hperm.eq_nil
        simp at this
      | cons y l2t =>
        subst hl2
        obtain ⟨c2, rfl⟩ := hall2 y (List.mem_cons_self _ _)
        obtain ⟨hr2, hmem2⟩ := meetFold_class_acc l2t c2 r2 h2
          (fun z hz => hall2 z (List.mem_cons_of_mem _ hz))
        have hc2 : c2 = c := by
          have hmemc2 : (TypeConstraint.cls c2)
              ∈ (TypeConstraint.cls c :: l1t) :=
            hperm.mem_iff.mpr (List.mem_cons_self _ _)
          rcases List.mem_cons.mp hmemc2 with heq | hm
          · exact TypeConstraint.cls.inj heq
          · exact hmem1 c2 hm
        rw [hr1, hr2, hc2]

theorem ite_panicked_errors (c : Prop) [Decidable c] (s : InferState) :
    (if c then { s with panicked := true } else s).errors = s.errors := by
  split <;> rfl

theorem ite_panicked_resolved (c : Prop) [Decidable c] (s : InferState) :
    (if c then { s with panicked := true } else s).resolved = s.resolved := by
  split <;> rfl

theorem infer_assertOnly_parts (syms : List Nat) (ns : List (Nat × Nat))
    (cs : List Constraint) (hall : ∀ c ∈ cs, c.isAssert = true) :
    (infer ⟨syms, ns, cs⟩).errors
      = (assertFold ⟨[], [], false⟩ cs).errors ∧
    (infer ⟨syms, ns, cs⟩).resolved
      = (assertFold ⟨[], [], false⟩ cs).resolved := by
  have hrp := runPass_assertOnly cs ⟨[], [], false⟩ hall
  simp only [infer]
  rw [hrp, solveLoop_nil]
  exact ⟨ite_panicked_errors _ _, ite_panicked_resolved _ _⟩

/-- C2 (amended): permutation invariance of the final node→type assignment
    holds for constraint lists consisting only of `Assert` constraints: if
    two emission orders of the same multiset of asserts both type-check (no
    errors, no panic), the final node→type assignments coincide. (The
    counterexample shows the property fails once `Equalivalent` constraints
    participate, because they propagate eager class defaults.) -/
theorem c2_amended_assert_permutation (syms : List Nat)
    (ns : List (Nat × Nat)) (cs1 cs2 : List Constraint)
    (hall : ∀ c ∈ cs1, c.isAssert = true)
    (hperm : cs1.Perm cs2)
    (he1 : (infer ⟨syms, ns, cs1⟩).errors = [])
    (he2 : (infer ⟨syms, ns, cs2⟩).errors = [])
    (hp1 : (infer ⟨syms, ns, cs1⟩).panicked = false)
    (hp2 : (infer ⟨syms, ns, cs2⟩).panicked = false) :
    (infer ⟨syms, ns, cs1⟩).node_type = (infer ⟨syms, ns, cs2⟩).node_type := by
  have hall2 : ∀ c ∈ cs2, c.isAssert = true :=
    fun c hc => hall c (hperm.mem_iff.mpr hc)
  obtain ⟨hE1, hR1⟩ := infer_assertOnly_parts syms ns cs1 hall
  obtain ⟨hE2, hR2⟩ := infer_assertOnly_parts syms ns cs2 hall2
  have hfe1 : (assertFold ⟨[], [], false⟩ cs1).errors = [] := hE1.symm.trans he1
  have hfe2 : (assertFold ⟨[], [], false⟩ cs2).errors = [] := hE2.symm.trans he2
  have hkey : ∀ k,
      assocLookup (infer ⟨syms, ns, cs1⟩).resolved k
        = assocLookup (infer ⟨syms, ns, cs2⟩).resolved k := by
    intro k
    have m1 := assertFold_lookup cs1 ⟨[], [], false⟩ hall (by rw [hfe1]) k
    have m2 := assertFold_lookup cs2 ⟨[], [], false⟩ hall2 (by rw [hfe2]) k
    have hpf : (tcFor cs1 k).Perm (tcFor cs2 k) := hperm.filterMap _
    have hres := meetFold_perm _ _ hpf _ _ m1 m2
    rw [hR1, hR2]
    exact hres
  rw [infer_decompose, infer_decompose, he1, he2, hp1, hp2]
  simp only [List.isEmpty_nil, Bool.not_false, Bool.and_self, if_true]
  exact List.map_congr_left (fun p hp => by rw [hkey p.2])

/-- Witness for `c2_amended_assert_permutation`: swapping two asserts on the
    same symbol leaves the final assignment unchanged. -/
theorem c2_amended_witness :
    (infer ⟨[1], [(5, 1)],
      [.assert 1 (.concrete .i64), .assert 1 (.cls .integer)]⟩).node_type
    = (infer ⟨[1], [(5, 1)],
      [.assert 1 (.cls .integer), .assert 1 (.concrete .i64)]⟩).node_type :=
  c2_amended_assert_permutation [1] [(5, 1)] _ _
    (by decide) (List.Perm.swap _ _ _) (by decide) (by decide)
    (by decide) (by decide)

theorem assocLookup_isSome_iff_mem {α : Type} (l : List (Nat × α)) (k : Nat) :
    (assocLookup l k).isSome ↔ k ∈ l.map Prod.fst := by
  induction l with
  | nil => simp [assocLookup]
  | cons p r ih =>
    obtain ⟨k0, v0⟩ := p
    by_cases h : k0 = k
    · subst h
      simp [assocLookup]
    · simp only [assocLookup, if_neg h, List.map_cons, List.mem_cons]
      rw [ih]
      constructor
      · exact fun hm => Or.inr hm
      · rintro (hm | hm)
        · exact absurd hm.symm h
        · exact hm

theorem assocInsert_keys_of_none {α : Type} (l : List (Nat × α)) (k : Nat)
    (v : α) (h : assocLookup l k = none) :
    (assocInsert l k v).map Prod.fst = l.map Prod.fst ++ [k] := by
  induction l with
  | nil => simp [assocInsert]
  | cons p r ih =>
    obtain ⟨k0, v0⟩ := p
    simp only [assocLookup] at h
    by_cases hk : k0 = k
    · rw [if_pos hk] at h
      cases h
    · rw [if_neg hk] at h
      simp [assocInsert, hk, ih h]

theorem assocInsert_keys_of_some {α : Type} (l : List (Nat × α)) (k : Nat)
    (v w : α) (h : assocLookup l k = some w) :
    (assocInsert l k v).map Prod.fst = l.map Prod.fst := by
  induction l with
  | nil => simp [assocLookup] at h
  | cons p r ih =>
    obtain ⟨k0, v0⟩ := p
    simp only [assocLookup] at h
    by_cases hk : k0 = k
    · subst hk
      simp [assocInsert]
    · rw [if_neg hk] at h
      simp [assocInsert, hk, ih h]

theorem runPass_pending_subset :
    ∀ (cs : List Constraint) (st : InferState) (c : Constraint),
      c ∈ (runPass st cs).2 → c ∈ cs := by
  intro cs
  induction cs with
  | nil => intro st c h; simp [runPass] at h
  | cons c0 rest ih =>
    intro st c h
    simp only [runPass] at h
    split at h
    · exact List.mem_cons_of_mem _ (ih _ _ h)
    · rw [List.mem_cons] at h
      rcases h with rfl | h
      · exact List.mem_cons_self _ _
      · exact List.mem_cons_of_mem _ (ih _ _ h)

theorem uce_fold_resolved (pend : List Constraint) :
    ∀ st : InferState,
      (pend.foldl (fun s cc => s.unresolved_constraint_error cc) st).resolved
        = st.resolved := by
  induction pend with
  | nil => intro st; rfl
  | cons c rest ih =>
    intro st
    cases c with
    | assert ts tc => exact (ih _).trans rfl
    | equalivalent a b => exact (ih _).trans rfl
    | convert v t => exact (ih _).trans rfl

theorem infer_resolved_eq (X : Constraints) :
    (infer X).resolved = (solveLoop X.constraints.length
      (runPass ⟨[], [], false⟩ X.constraints).1
      (runPass ⟨[], [], false⟩ X.constraints).2).1.resolved := by
  simp only [infer]
  rw [ite_panicked_resolved, uce_fold_resolved]

theorem set_tc_inv (S : List Nat) (cs0 : List Constraint) (st : InferState)
    (ts : Nat) (tc : TypeConstraint) (hI : InvOK S cs0 st) (hts : ts ∈ S)
    (htc : tcFromAsserts cs0 tc) :
    InvOK S cs0 (st.set_type_constraint ts tc) := by
  obtain ⟨hA, hB, hC⟩ := hI
  unfold InferState.set_type_constraint
  split
  · rename_i prev hprev
    split
    · rename_i u hu
      refine ⟨?_, ?_, ?_⟩
      · show ((assocInsert st.resolved ts u).map Prod.fst).Nodup
        rw [assocInsert_keys_of_some _ _ _ _ hprev]
        exact hA
      · intro k hk
        by_cases hkts : ts = k
        · subst hkts
          exact hts
        · rw [show ((({ st with resolved := assocInsert st.resolved ts u }
              : InferState)).resolved) = assocInsert st.resolved ts u from rfl,
            assocLookup_insert_ne _ _ _ _ (fun hh => hkts hh.symm)] at hk
          exact hB k hk
      · intro k tck hlk
        by_cases hkts : ts = k
        · subst hkts
          rw [show ((({ st with resolved := assocInsert st.resolved ts u }
              : InferState)).resolved) = assocInsert st.resolved ts u from rfl,
            assocLookup_insert_self] at hlk
          have htck : tck = u := (Option.some.inj hlk).symm
          subst htck
          rcases unify_mem prev tc tck hu with rfl | rfl
          · exact hC ts tck hprev
          · exact htc
        · rw [show ((({ st with resolved := assocInsert st.resolved ts u }
              : InferState)).resolved) = assocInsert st.resolved ts u from rfl,
            assocLookup_insert_ne _ _ _ _ (fun hh => hkts hh.symm)] at hlk
          exact hC k tck hlk
    · exact ⟨hA, hB, hC⟩
  · rename_i hnone
    refine ⟨?_, ?_, ?_⟩
    · show ((assocInsert st.resolved ts tc).map Prod.fst).Nodup
      rw [assocInsert_keys_of_none _ _ _ hnone]
      rw [List.nodup_append]
      refine ⟨hA, List.nodup_singleton _, ?_⟩
      intro a ha hamem
      have : a = ts := by simpa using hamem
      subst this
      have : (assocLookup st.resolved a).isSome := by
        rw [assocLookup_isSome_iff_mem]
        exact ha
      rw [hnone] at this
      cases this
    · intro k hk
      by_cases hkts : ts = k
      · subst hkts
        exact hts
      · rw [show ((({ st with resolved := assocInsert st.resolved ts tc }
            : InferState)).resolved) = assocInsert st.resolved ts tc from rfl,
          assocLookup_insert_ne _ _ _ _ (fun hh => hkts hh.symm)] at hk
        exact hB k hk
    · intro k tck hlk
      by_cases hkts : ts = k
      · subst hkts
        rw [show ((({ st with resolved := assocInsert st.resolved ts tc }
            : InferState)).resolved) = assocInsert st.resolved ts tc from rfl,
          assocLookup_insert_self] at hlk
        have htck : tck = tc := (Option.some.inj hlk).symm
        subst htck
        exact htc
      · rw [show ((({ st with resolved := assocInsert st.resolved ts tc }
            : InferState)).resolved) = assocInsert st.resolved ts tc from rfl,
          assocLookup_insert_ne _ _ _ _ (fun hh => hkts hh.symm)] at hlk
        exact hC k tck hlk

theorem process_inv (S : List Nat) (cs0 : List Constraint) (st : InferState)
    (c : Constraint) (hI : InvOK S cs0 st)
    (hm : ∀ k ∈ c.mentioned, k ∈ S)
    (hpa : ∀ ts tc, c = Constraint.assert ts tc → tcFromAsserts cs0 tc) :
    InvOK S cs0 (st.process_constraint c).1 := by
  cases c with
  | assert ts tc =>
    exact set_tc_inv S cs0 st ts tc hI
      (hm ts (by simp [Constraint.mentioned])) (hpa ts tc rfl)
  | equalivalent a b =>
    simp only [InferState.process_constraint]
    split
    · rename_i t hget
      have hprov : tcFromAsserts cs0 (.concrete t) := by
        unfold InferState.get_type at hget
        cases hlk : assocLookup st.resolved a with
        | none =>
          rw [hlk] at hget
          cases hget
        | some tcx =>
          rw [hlk] at hget
          have hCx := hI.2.2 a tcx hlk
          cases tcx with
          | concrete t2 =>
            have ht2 : t2 = t := Option.some.inj hget
            subst ht2
            exact hCx
          | cls cc =>
            cases cc with
            | float =>
              have ht2 : Ty.f64 = t := Option.some.inj hget
              subst ht2
              right; right; rfl
            | integer =>
              have ht2 : Ty.i64 = t := Option.some.inj hget
              subst ht2
              right; left; rfl
      exact set_tc_inv S cs0 st b (.concrete t) hI
        (hm b (by simp [Constraint.mentioned])) hprov
    · split
      · rename_i t hget
        have hprov : tcFromAsserts cs0 (.concrete t) := by
          unfold InferState.get_type at hget
          cases hlk : assocLookup st.resolved b with
          | none =>
            rw [hlk] at hget
            cases hget
          | some tcx =>
            rw [hlk] at hget
            have hCx := hI.2.2 b tcx hlk
            cases tcx with
            | concrete t2 =>
              have ht2 : t2 = t := Option.some.inj hget
              subst ht2
              exact hCx
            | cls cc =>
              cases cc with
              | float =>
                have ht2 : Ty.f64 = t := Option.some.inj hget
                subst ht2
                right; right; rfl
              | integer =>
                have ht2 : Ty.i64 = t := Option.some.inj hget
                subst ht2
                right; left; rfl
        exact set_tc_inv S cs0 st a (.concrete t) hI
          (hm a (by simp [Constraint.mentioned])) hprov
      · exact hI
  | convert val into_type =>
    simp only [InferState.process_constraint]
    split
    · split
      · exact hI
      · exact hI
    · exact hI

theorem runPass_inv (S : List Nat) (cs0 : List Constraint) :
    ∀ (cs : List Constraint) (st : InferState), InvOK S cs0 st →
      (∀ c ∈ cs, (∀ k ∈ c.mentioned, k ∈ S) ∧
        (∀ ts tc, c = Constraint.assert ts tc → tcFromAsserts cs0 tc)) →
      InvOK S cs0 (runPass st cs).1 := by
  intro cs
  induction cs with
  | nil => intro st hI _; exact hI
  | cons c rest ih =>
    intro st hI hcond
    have hc := hcond c (List.mem_cons_self _ _)
    have hI2 := process_inv S cs0 st c hI hc.1 hc.2
    exact ih _ hI2 (fun d hd => hcond d (List.mem_cons_of_mem _ hd))

theorem solveLoop_inv (S : List Nat) (cs0 : List Constraint) :
    ∀ (fuel : Nat) (st : InferState) (pend : List Constraint),
      InvOK S cs0 st →
      (∀ c ∈ pend, (∀ k ∈ c.mentioned, k ∈ S) ∧
        (∀ ts tc, c = Constraint.assert ts tc → tcFromAsserts cs0 tc)) →
      InvOK S cs0 (solveLoop fuel st pend).1 := by
  intro fuel
  induction fuel with
  | zero => intro st pend hI _; exact hI
  | succ n ih =>
    intro st pend hI hcond
    unfold solveLoop
    split
    · exact hI
    · dsimp only
      split
      · exact runPass_inv S cs0 pend st hI hcond
      · exact ih _ _ (runPass_inv S cs0 pend st hI hcond)
          (fun d hd => hcond d (runPass_pending_subset _ _ _ hd))

theorem infer_resolved_inv (X : Constraints)
    (hm : ∀ c ∈ X.constraints, ∀ k ∈ c.mentioned, k ∈ X.symbols) :
    ((infer X).resolved.map Prod.fst).Nodup ∧
    (∀ k, (assocLookup (infer X).resolved k).isSome → k ∈ X.symbols) ∧
    (∀ k tc, assocLookup (infer X).resolved k = some tc →
      tcFromAsserts X.constraints tc) := by
  rw [infer_resolved_eq]
  have hI0 : InvOK X.symbols X.constraints ⟨[], [], false⟩ :=
    ⟨by simp, by simp [assocLookup], by simp [assocLookup]⟩
  have hcond : ∀ c ∈ X.constraints, (∀ k ∈ c.mentioned, k ∈ X.symbols) ∧
      (∀ ts tc, c = Constraint.assert ts tc →
        tcFromAsserts X.constraints tc) :=
    fun c hc => ⟨hm c hc, fun ts tc hct => Or.inl ⟨ts, hct ▸ hc⟩⟩
  have h1 := runPass_inv X.symbols X.constraints X.constraints ⟨[], [], false⟩
    hI0 hcond
  exact solveLoop_inv X.symbols X.constraints X.constraints.length _ _ h1
    (fun d hd => hcond d (runPass_pending_subset _ _ _ hd))

theorem infer_count (X : Constraints)
    (he : (infer X).errors = []) (hp : (infer X).panicked = false) :
    X.symbols.length ≤ (infer X).resolved.length := by
  simp only [infer] at he hp ⊢
  rw [ite_panicked_errors] at he
  rw [ite_panicked_resolved]
  split at hp
  · simp at hp
  · rename_i hcond
    rw [he] at hcond
    simp at hcond
    omega

/-- C7: after a compile that reports no errors (and does not panic), the
    node→type assignment covers exactly the nodes of the unit's node graph,
    and every recorded type is a concrete type: abstract classes are
    eliminated by defaulting, and no generic variable survives provided the
    gatherer only asserted generic-free payloads. The hypotheses on the
    symbol tables state the well-formedness the gatherer guarantees: symbols
    are registered once, constraints mention registered symbols, and node
    symbols are registered. -/
theorem c7_node_completeness (X : Constraints)
    (hsy : X.symbols.Nodup)
    (hm : ∀ c ∈ X.constraints, ∀ k ∈ c.mentioned, k ∈ X.symbols)
    (hns : ∀ p ∈ X.node_symbols, p.2 ∈ X.symbols)
    (hcf : ∀ ts tc, Constraint.assert ts tc ∈ X.constraints →
      tc.payloadConcrete = true)
    (he : (infer X).errors = [])
    (hp : (infer X).panicked = false) :
    ((infer X).node_type.map Prod.fst = X.node_symbols.map Prod.fst) ∧
    (∀ p ∈ (infer X).node_type, ∃ t : Ty, p.2 = some t ∧ t.isConcrete = true) := by
  obtain ⟨hA, hB, hC⟩ := infer_resolved_inv X hm
  have hcount := infer_count X he hp
  have hkeymem : ∀ s ∈ X.symbols, (assocLookup (infer X).resolved s).isSome := by
    intro s hs
    rw [assocLookup_isSome_iff_mem]
    have hsub : ∀ x ∈ (infer X).resolved.map Prod.fst, x ∈ X.symbols := by
      intro x hx
      exact hB x (by rw [assocLookup_isSome_iff_mem]; exact hx)
    have h1 : ((infer X).resolved.map Prod.fst).toFinset
        ⊆ X.symbols.toFinset := by
      intro x hx
      exact List.mem_toFinset.mpr (hsub x (List.mem_toFinset.mp hx))
    have hkl : ((infer X).resolved.map Prod.fst).length
        = (infer X).resolved.length := List.length_map _ _
    have h2 : X.symbols.toFinset.card
        ≤ ((infer X).resolved.map Prod.fst).toFinset.card := by
      rw [List.toFinset_card_of_nodup hA, List.toFinset_card_of_nodup hsy, hkl]
      exact hcount
    have hset := Finset.eq_of_subset_of_card_le h1 h2
    have hmem2 : s ∈ ((infer X).resolved.map Prod.fst).toFinset := by
      rw [hset]
      exact List.mem_toFinset.mpr hs
    exact List.mem_toFinset.mp hmem2
  have hEq := infer_decompose X
  rw [he, hp] at hEq
  simp only [List.isEmpty_nil, Bool.not_false, Bool.and_self, if_true] at hEq
  constructor
  · rw [hEq, List.map_map]
    simp
  · intro p hp2
    rw [hEq] at hp2
    obtain ⟨q, hq, rfl⟩ := List.mem_map.mp hp2
    have hqs := hkeymem q.2 (hns q hq)
    cases hlk : assocLookup (infer X).resolved q.2 with
    | none =>
      rw [hlk] at hqs
      cases hqs
    | some tc =>
      have hprov := hC q.2 tc hlk
      cases tc with
      | concrete t =>
        refine ⟨t, rfl, ?_⟩
        rcases hprov with ⟨ts0, hmem⟩ | h64 | h64
        · exact hcf ts0 (.concrete t) hmem
        · rw [TypeConstraint.concrete.inj h64]
          rfl
        · rw [TypeConstraint.concrete.inj h64]
          rfl
      | cls cc =>
        cases cc with
        | float => exact ⟨.f64, rfl, rfl⟩
        | integer => exact ⟨.i64, rfl, rfl⟩

/-- Witness for `c7_node_completeness`: a two-node unit (a `u32`-annotated
    symbol and a still-abstract Integer symbol) type-checks and every node
    receives a concrete type. -/
theorem c7_witness :
    ((infer ⟨[1, 2], [(10, 1), (11, 2)],
      [.assert 1 (.concrete .u32), .assert 2 (.cls .integer)]⟩).node_type.map
        Prod.fst = [10, 11]) ∧
    (∀ p ∈ (infer ⟨[1, 2], [(10, 1), (11, 2)],
      [.assert 1 (.concrete .u32), .assert 2 (.cls .integer)]⟩).node_type,
      ∃ t : Ty, p.2 = some t ∧ t.isConcrete = true) :=
  c7_node_completeness ⟨[1, 2], [(10, 1), (11, 2)],
      [.assert 1 (.concrete .u32), .assert 2 (.cls .integer)]⟩
    (by decide) (by decide) (by decide)
    (by
      intro ts tc hmem
      simp only [List.mem_cons, List.not_mem_nil, or_false] at hmem
      rcases hmem with h | h <;>
        (injection h with h1 h2; subst h2; rfl))
    (by decide) (by decide)
